import Mathlib

set_option maxHeartbeats 1000000
set_option linter.unusedSectionVars false

/-!
A shallow embedding of `mesher.py` (class `Builder`): ring loading and
indexing, linework building, sidedness resolution and export.

The geometry primitives (shapely) and the spatial index search structure
(rtree) are external collaborators of the program; they are modelled by an
explicit record of operations `GeoOps` over abstract types
`G` (geometries), `B` (bounding boxes), `C` (coordinate pairs),
`GJ` (geometry interchange encodings) and `V` (attribute values).
Every Builder method is translated line by line from the Python source,
with Python dictionaries as insertion-ordered association lists
(an assignment to an existing key replaces the value in place,
an assignment to a fresh key appends at the end) and exceptions as `Option`
(`none` models a raised exception such as `AttributeError` on
`None.parallel_offset`).

A concrete instance of `GeoOps` over one-dimensional rational geometry
(`QG`, all points on the x-axis) is provided; on collinear input it models
the shapely `length`/`project` primitives exactly and is used for the
concrete examples and counterexamples.
-/

/-- Values that can appear in a properties dictionary of a merged line:
the hash string, a side value (possibly `None`), or the integer ring id. -/
inductive PVal (V : Type) where
  | str (s : String)
  | opt (v : Option V)
  | nat (n : Nat)
  deriving DecidableEq

/-- Payload stored with every rtree index entry:
`dict(id=idx, properties=feature['properties'], geometry=geom)`. -/
structure Payload (G V : Type) where
  id : Nat
  properties : String → V
  geometry : G

/-- One rtree index entry: the bounding box it was inserted under plus its payload
(`self.index.insert(idx, ring.bounds, obj=...)`). -/
structure IdxEntry (G B V : Type) where
  bbox : B
  payload : Payload G V

/-- One value of the `self.merged` dictionary:
`{'geometry': LineString(...), 'properties': props}`. -/
structure MergedEntry (G V : Type) where
  geometry : G
  properties : List (String × PVal V)
  deriving DecidableEq

/-- The state of a `Builder` instance: `self.rings`, `self.merged`, `self.index`. -/
structure Builder (G B V : Type) where
  rings : List (Nat × G)
  merged : List (String × MergedEntry G V)
  index : List (IdxEntry G B V)

/-- `Builder.__init__`: empty rings, merged and index. -/
def Builder.empty (G B V : Type) : Builder G B V := ⟨[], [], []⟩

/-- An input feature as read by fiona: a geometry and an attribute map. -/
structure SrcFeature (G V : Type) where
  geometry : G
  properties : String → V

/-- A GeoJSON-style output feature as produced by the `linework` property. -/
structure GeoFeature (GJ V : Type) where
  type : String
  id : String
  geometry : GJ
  properties : List (String × PVal V)

/-- The external geometry / spatial-index collaborator operations consumed by
the Builder (shapely and rtree), exactly the contract surface the source uses:
multipart decomposition (`.geoms` when present), polygon rings, bounding
boxes and their overlap test, exact intersection, `interpolate(0.5, normalized=True)`,
WKT text, md5 hashing of that text, `unary_union`, `linemerge`, `buffer`,
coordinate access, `Point` and `LineString` construction, `length`,
`project`, `parallel_offset` (the Bool is `true` for the left side) and
`__geo_interface__`. -/
structure GeoOps (G B C GJ V : Type) where
  parts : G → Option (List G)
  exterior : G → G
  interiors : G → List G
  bounds : G → B
  boxIntersects : B → B → Bool
  intersects : G → G → Bool
  interpolateHalf : G → G
  wkt : G → String
  md5 : String → String
  unary_union : List G → G
  linemerge : List G → G
  buffer : G → ℚ → G
  coords : G → List C
  point : C → G
  mkLine : List C → G
  lineString : G → G
  length : G → ℚ
  project : G → G → ℚ
  parallel_offset : G → ℚ → Bool → G
  geoInterface : G → GJ

/-- Python's `str.lower()`: lowercase the string character by character
(executable model of `propertyname.lower()`). -/
def pyLower (s : String) : String := ⟨s.data.map Char.toLower⟩

/-- Python dictionary lookup on an insertion-ordered association list. -/
def alookup {K A : Type} [DecidableEq K] (k : K) : List (K × A) → Option A
  | [] => none
  | p :: l => if p.1 = k then some p.2 else alookup k l

/-- Python dictionary assignment `d[k] = v` on an insertion-ordered association
list: replace in place when the key is present, append when it is fresh. -/
def dictInsert {K A : Type} [DecidableEq K] (k : K) (v : A) (m : List (K × A)) :
    List (K × A) :=
  if (alookup k m).isSome then m.map (fun p => if p.1 = k then (k, v) else p)
  else m ++ [(k, v)]

/-- The keys of a dictionary in insertion order. -/
def keysOf {K A : Type} (m : List (K × A)) : List K := m.map Prod.fst

section Mesher

variable {G B C GJ V : Type}

/-- `Builder._dump`: yield the parts of a multipart geometry (`hasattr(shape, 'geoms')`),
or the geometry itself when it is singlepart. -/
def dump (O : GeoOps G B C GJ V) (s : G) : List G :=
  match O.parts s with
  | some gs => gs
  | none => [s]

/-- `Builder._dump_rings`: the exterior ring of a polygon followed by each
interior (hole) ring, in that order. -/
def dump_rings (O : GeoOps G B C GJ V) (geom : G) : List G :=
  O.exterior geom :: O.interiors geom

/-- `Builder._get_center`: `line.interpolate(0.5, normalized=True)`. -/
def get_center (O : GeoOps G B C GJ V) (line : G) : G :=
  O.interpolateHalf line

/-- `Builder._get_md5_hash`: md5 hex digest of a string. -/
def get_md5_hash (O : GeoOps G B C GJ V) (s : String) : String :=
  O.md5 s

/-- `Builder._intersects`: rtree lookup by bounding box followed by an exact
intersection test against the payload geometry; yields payloads in index order. -/
def ixIntersects (O : GeoOps G B C GJ V) (entries : List (IdxEntry G B V)) (obj : G) :
    List (Payload G V) :=
  ((entries.filter (fun e => O.boxIntersects e.bbox (O.bounds obj))).map
      (fun e => e.payload)).filter (fun f => O.intersects obj f.geometry)

/-- `Builder._linemerge`: iterate `linemerge(lines).geoms` when the result is
multipart, otherwise yield the single merged line. -/
def linemerge_list (O : GeoOps G B C GJ V) (lines_to_merge : List G) : List G :=
  match O.parts (O.linemerge lines_to_merge) with
  | some gs => gs
  | none => [O.linemerge lines_to_merge]

/-- The vertex walk inside `Builder._line_center_sample`:
`for i, p in enumerate(coords): if line.project(Point(p)) > half_distance:
return LineString([coords[i-1], coords[i]])`.  `prev` carries `coords[i-1]`
(in Python, `coords[-1]` — the last coordinate — when `i = 0`). -/
def centerLoop (proj : C → ℚ) (half : ℚ) : C → List C → Option (C × C)
  | _, [] => none
  | prev, p :: rest =>
      if half < proj p then some (prev, p) else centerLoop proj half p rest

/-- `Builder._line_center_sample`: a two-coordinate sample of the input line.
A two-vertex line is returned unchanged; otherwise the walk returns the
segment ending at the first vertex whose projected distance along the line
exceeds half the line's length, and `none` (Python `None`, falling off the
loop) when no vertex projects past the half length. -/
def line_center_sample (O : GeoOps G B C GJ V) (line : G) : Option G :=
  let half_distance := O.length line / 2
  let coords := O.coords line
  if coords.length = 2 then some line
  else
    match coords.getLast? with
    | none => none
    | some lst =>
        (centerLoop (fun p => O.project line (O.point p)) half_distance lst coords).map
          (fun pr => O.mkLine [pr.1, pr.2])

/-- `Builder._get_side`: the requested property of the first polygon the input
point falls in; `None` when the candidate list is empty (`IndexError` caught). -/
def get_side (O : GeoOps G B C GJ V) (entries : List (IdxEntry G B V))
    (pnt : G) (propertyname : String) : Option V :=
  match ixIntersects O entries pnt with
  | [] => none
  | f :: _ => some (f.properties propertyname)

/-- `Builder._get_left_right`: sample the line at half distance, offset the
sample by 0.01 to each side, and resolve each side's property value.  `none`
models the `AttributeError` raised when `_line_center_sample` returned `None`
and `.parallel_offset` is called on it. -/
def get_left_right (O : GeoOps G B C GJ V) (entries : List (IdxEntry G B V))
    (hash : String) (line : G) (propertyname : String) :
    Option (List (String × PVal V)) :=
  (line_center_sample O line).map fun center_sample =>
    let left := get_center O (O.parallel_offset center_sample (1/100) true)
    let right := get_center O (O.parallel_offset center_sample (1/100) false)
    [("hash", PVal.str hash),
     ("left_" ++ pyLower propertyname, PVal.opt (get_side O entries left propertyname)),
     ("right_" ++ pyLower propertyname, PVal.opt (get_side O entries right propertyname))]

/-- The content hash of a geometry's center point:
`self._get_md5_hash(self._get_center(g).wkt.encode('utf-8'))`. -/
def centerHash (O : GeoOps G B C GJ V) (g : G) : String :=
  get_md5_hash O (O.wkt (get_center O g))

/-- The test `len(others) == 1 and others[0]['id'] == idx` selecting the
isolated-ring case of `build_linework`. -/
def isolatedCase (others : List (Payload G V)) (idx : Nat) : Bool :=
  match others with
  | [f] => f.id == idx
  | _ => false

/-- The body of `for meshline in merged:` inside the shared/overlapping case of
`build_linework`: store the line under its center hash when the hash is fresh,
the ring intersects the 0.02 disc around the line's center, and the line's
first and last points lie on the ring.  `none` models the exceptions the body
can raise (`IndexError` on the coords of an empty line, or the
`AttributeError` from `_get_left_right`). -/
def processLine (O : GeoOps G B C GJ V) (entries : List (IdxEntry G B V))
    (propertyname : String) (idx : Nat) (ring : G)
    (m : List (String × MergedEntry G V)) (meshline : G) :
    Option (List (String × MergedEntry G V)) :=
  let center_point := get_center O meshline
  let hash := get_md5_hash O (O.wkt center_point)
  if (alookup hash m).isSome then some m
  else if O.intersects ring (O.buffer center_point (2/100)) then
    match (O.coords meshline).head?, (O.coords meshline).getLast? with
    | some fp, some lp =>
        if O.intersects ring (O.point fp) && O.intersects ring (O.point lp) then
          (get_left_right O entries hash meshline propertyname).map fun props =>
            dictInsert hash
              ⟨O.lineString meshline, dictInsert "idx" (PVal.nat idx) props⟩ m
        else some m
    | _, _ => none
  else some m

/-- One iteration of `for idx, ring in self.rings.items():` inside
`build_linework`: neighbour discovery, then either the isolated-ring store or
the union / linemerge / per-line store of the shared case. -/
def build_step (O : GeoOps G B C GJ V) (ringsMap : List (Nat × G))
    (entries : List (IdxEntry G B V)) (propertyname : String)
    (m : List (String × MergedEntry G V)) (ir : Nat × G) :
    Option (List (String × MergedEntry G V)) :=
  let idx := ir.1
  let ring := ir.2
  let others := ixIntersects O entries ring
  if isolatedCase others idx then
    let hash := centerHash O ring
    (get_left_right O entries hash ring propertyname).map fun props =>
      dictInsert hash ⟨O.lineString ring, dictInsert "idx" (PVal.nat idx) props⟩ m
  else
    (others.mapM (fun f => alookup f.id ringsMap)).bind fun rings_to_merge =>
      let lines_to_merge := dump O (O.unary_union rings_to_merge)
      (linemerge_list O lines_to_merge).foldlM
        (processLine O entries propertyname idx ring) m

/-- `Builder.build_linework(propertyname)`: walk all stored rings in insertion
order, accumulating `self.merged`; only `self.merged` is mutated.  `none`
models an uncaught exception aborting the pass. -/
def Builder.build_linework (O : GeoOps G B C GJ V) (propertyname : String)
    (b : Builder G B V) : Option (Builder G B V) :=
  (b.rings.foldlM (build_step O b.rings b.index propertyname) b.merged).map
    fun m => { b with merged := m }

/-- The body of the innermost loop of `Builder.load`:
`self.rings[idx] = ring; self.index.insert(idx, ring.bounds, obj=dict(...)); idx += 1`,
on the state (builder, local counter). -/
def load_ring_step (O : GeoOps G B C GJ V) (props : String → V) (geom : G)
    (st : Builder G B V × Nat) (ring : G) : Builder G B V × Nat :=
  ({ st.1 with
      rings := dictInsert st.2 ring st.1.rings,
      index := st.1.index ++ [⟨O.bounds ring, ⟨st.2, props, geom⟩⟩] },
   st.2 + 1)

/-- The middle loop of `Builder.load`: `for ring in self._dump_rings(geom):`. -/
def load_geom_step (O : GeoOps G B C GJ V) (props : String → V)
    (st : Builder G B V × Nat) (geom : G) : Builder G B V × Nat :=
  (dump_rings O geom).foldl (load_ring_step O props geom) st

/-- The outer loop body of `Builder.load`: `for geom in self._dump(shape(...)):`. -/
def load_feature_step (O : GeoOps G B C GJ V)
    (st : Builder G B V × Nat) (feature : SrcFeature G V) : Builder G B V × Nat :=
  (dump O feature.geometry).foldl (load_geom_step O feature.properties) st

/-- `Builder.load`: decompose each feature's geometry into singlepart polygons,
extract each polygon's rings, store each ring under a local counter `idx`
(which starts at `0` at every call) and insert the matching index entry.
The input source is modelled as the list of features fiona yields. -/
def Builder.load (O : GeoOps G B C GJ V) (b : Builder G B V)
    (features : List (SrcFeature G V)) : Builder G B V :=
  (features.foldl (load_feature_step O) (b, 0)).1

/-- `Builder.linework`: one GeoJSON feature per entry of `self.merged`, in
dictionary (insertion) order. -/
def Builder.linework (O : GeoOps G B C GJ V) (b : Builder G B V) :
    List (GeoFeature GJ V) :=
  b.merged.map fun p =>
    ⟨"Feature", p.1, O.geoInterface p.2.geometry, p.2.properties⟩

end Mesher

/-! ### A concrete collaborator instance: one-dimensional rational geometry

All points lie on the x-axis, so segment lengths and distances along a line
are rational and the shapely `length` and `project` primitives are modelled
exactly: `project` returns the distance along the line of the nearest point
of the line to the given point, the earliest such location winning ties,
which is the GEOS behaviour (its minimum-distance scan only updates on a
strictly smaller distance). -/

/-- A geometry of the concrete instance: a point on the x-axis, a linestring
with vertices on the x-axis, or an empty geometry. -/
inductive QG where
  | pt (x : ℚ)
  | ln (xs : List ℚ)
  | nil
  deriving DecidableEq

/-- The length of a polyline through the given x-axis vertices. -/
def polyLen : List ℚ → ℚ
  | a :: b :: rest => |b - a| + polyLen (b :: rest)
  | _ => 0

/-- For one segment from `a` to `b` starting at distance `cum` along the line:
the distance from `p` to the nearest point of the segment, and the position
of that nearest point along the line. -/
def segBest (a b p cum : ℚ) : ℚ × ℚ :=
  let c := max (min a b) (min p (max a b))
  (|p - c|, cum + |c - a|)

/-- Scan the remaining segments keeping the first location of minimal
distance (updates only on a strictly smaller distance, as GEOS does). -/
def proj1DGo (p : ℚ) : List ℚ → ℚ → ℚ × ℚ → ℚ
  | a :: b :: rest, cum, best =>
      let cand := segBest a b p cum
      proj1DGo p (b :: rest) (cum + |b - a|) (if cand.1 < best.1 then cand else best)
  | _, _, best => best.2

/-- The distance along the polyline of the point of the polyline nearest to
`p` (shapely `line.project(Point(p))` for collinear geometry). -/
def project1D (xs : List ℚ) (p : ℚ) : ℚ :=
  match xs with
  | a :: b :: rest => proj1DGo p (a :: b :: rest) 0 (segBest a b p 0)
  | _ => 0

/-- The concrete collaborator instance over `QG`.  The structural operations
used by the center-sampling claims (`coords`, `length`, `project`, `point`,
`mkLine`) are exact for collinear geometry; the remaining operations are
simple total stand-ins adequate for closed concrete evaluations. -/
def Q1D : GeoOps QG Unit ℚ Unit String where
  parts := fun _ => none
  exterior := id
  interiors := fun _ => []
  bounds := fun _ => ()
  boxIntersects := fun _ _ => true
  intersects := fun _ _ => true
  interpolateHalf := id
  wkt := fun g => match g with
    | QG.pt _ => "POINT"
    | QG.ln _ => "LINESTRING"
    | QG.nil => "EMPTY"
  md5 := id
  unary_union := fun _ => QG.nil
  linemerge := fun _ => QG.nil
  buffer := fun g _ => g
  coords := fun g => match g with
    | QG.ln xs => xs
    | _ => []
  point := QG.pt
  mkLine := QG.ln
  lineString := id
  length := fun g => match g with
    | QG.ln xs => polyLen xs
    | _ => 0
  project := fun g p => match g, p with
    | QG.ln xs, QG.pt x => project1D xs x
    | _, _ => 0
  parallel_offset := fun g _ _ => g
  geoInterface := fun _ => ()

/-! ### Definitions written from the specification's words, for comparison -/

/-- Cumulative distance from the line's start at each vertex of a polyline. -/
def cumDists : ℚ → List ℚ → List ℚ
  | _, [] => []
  | d, [_] => [d]
  | d, a :: b :: rest => d :: cumDists (d + |b - a|) (b :: rest)

/-- The center-sample rule as the specification words it (claim C3): walk the
vertices accumulating distance-from-start and return `[vertex[i-1], vertex[i]]`
for the smallest `i` whose cumulative distance exceeds half the total length;
a two-vertex line is returned unchanged.  Stated over the one-dimensional
concrete geometry for comparison with `line_center_sample`. -/
def specCumulativeCenterSample (xs : List ℚ) : Option (ℚ × ℚ) :=
  if xs.length = 2 then some (xs.getD 0 0, xs.getD 1 0)
  else
    match (cumDists 0 xs).findIdx? (fun d => polyLen xs / 2 < d) with
    | some i => some (xs.getD (i - 1) 0, xs.getD i 0)
    | none => none

/-- The ring-extraction sequence as the specification words it (claim C7):
each feature's geometry decomposed into singlepart polygons (one per part for
a multipart geometry), then for each polygon the exterior ring followed by
each interior ring in order, each paired with the feature's attribute map and
the polygon it came from. -/
def specRingSeq {G B C GJ V : Type} (O : GeoOps G B C GJ V)
    (features : List (SrcFeature G V)) : List (G × (String → V) × G) :=
  features.flatMap fun f =>
    (match O.parts f.geometry with
      | some gs => gs
      | none => [f.geometry]).flatMap fun g =>
      (O.exterior g :: O.interiors g).map fun r => (r, f.properties, g)

/-! ### Further definitions used by the verification development -/

/-- The value of the last write to key `k` in a sequence of dictionary writes
(later pairs in the list are later writes). -/
def lastVal {K A : Type} [DecidableEq K] : List (K × A) → K → Option A
  | [], _ => none
  | w :: ws, k => (lastVal ws k).or (if w.1 = k then some w.2 else none)

/-- The isolated-ring write of `build_step`, as an optional merged entry
(`none` when `_get_left_right` raises). -/
def caseAEntry {G B C GJ V : Type} (O : GeoOps G B C GJ V) (E : List (IdxEntry G B V))
    (prop : String) (idx : Nat) (ring : G) : Option (MergedEntry G V) :=
  (get_left_right O E (centerHash O ring) ring prop).map fun props =>
    ⟨O.lineString ring, dictInsert "idx" (PVal.nat idx) props⟩

/-- The list of merged lines the shared case of `build_step` iterates over
(`none` when a candidate id is missing from the rings dictionary). -/
def meshLines {G B C GJ V : Type} (O : GeoOps G B C GJ V) (RM : List (Nat × G))
    (E : List (IdxEntry G B V)) (ring : G) : Option (List G) :=
  ((ixIntersects O E ring).mapM (fun f => alookup f.id RM)).map fun rtm =>
    linemerge_list O (dump O (O.unary_union rtm))

/-- The (ring, attribute map, parent polygon) triples contributed by a list of
singlepart polygons with a fixed attribute map. -/
def geomTriples {G B C GJ V : Type} (O : GeoOps G B C GJ V) (props : String → V)
    (gs : List G) : List (G × (String → V) × G) :=
  gs.flatMap fun g => (dump_rings O g).map fun r => (r, props, g)

/-- The ring dictionary entries contributed by a triple list starting at id `n`. -/
def ringsFromTriples {G V : Type} (n : Nat) (T : List (G × (String → V) × G)) :
    List (Nat × G) :=
  (List.enumFrom n T).map fun p => (p.1, p.2.1)

/-- The index entries contributed by a triple list starting at id `n`. -/
def entriesFromTriples {G B C GJ V : Type} (O : GeoOps G B C GJ V) (n : Nat)
    (T : List (G × (String → V) × G)) : List (IdxEntry G B V) :=
  (List.enumFrom n T).map fun p => ⟨O.bounds p.2.1, ⟨p.1, p.2.2.1, p.2.2.2⟩⟩

/-- The caseA write sequence of a run of `build_linework`: for every
isolated-case ring, the pair of its center hash and its merged entry. -/
def caseAWrites {G B C GJ V : Type} (O : GeoOps G B C GJ V) (RM : List (Nat × G))
    (E : List (IdxEntry G B V)) (prop : String) (RL : List (Nat × G)) :
    List (String × MergedEntry G V) :=
  RL.filterMap fun ir =>
    if isolatedCase (ixIntersects O E ir.2) ir.1 then
      (caseAEntry O E prop ir.1 ir.2).map fun e => (centerHash O ir.2, e)
    else none

/-- What a completed first `build_linework` run with final store `M`
guarantees about one ring: in the isolated case its sidedness resolution
succeeds; in the shared case its merged-line list is defined and every line
of it that passes the disc test either fails the first/last-point test or
has its center hash present in `M`. -/
def RingFact {G B C GJ V : Type} (O : GeoOps G B C GJ V) (RM : List (Nat × G))
    (E : List (IdxEntry G B V)) (prop : String)
    (M : List (String × MergedEntry G V)) (ir : Nat × G) : Prop :=
  (isolatedCase (ixIntersects O E ir.2) ir.1 = true →
    (caseAEntry O E prop ir.1 ir.2).isSome)
  ∧ (isolatedCase (ixIntersects O E ir.2) ir.1 = false →
      ∃ Ls, meshLines O RM E ir.2 = some Ls ∧ ∀ L ∈ Ls,
        O.intersects ir.2 (O.buffer (get_center O L) (2/100)) = true →
        ((∃ fp lp, (O.coords L).head? = some fp ∧ (O.coords L).getLast? = some lp
            ∧ (O.intersects ir.2 (O.point fp) && O.intersects ir.2 (O.point lp)) = false)
         ∨ (alookup (centerHash O L) M).isSome))

/-- The invariant of claim C10 on the merged store: every entry's properties
record a hash field equal to the entry's own key. -/
def HashInv {G V : Type} (m : List (String × MergedEntry G V)) : Prop :=
  ∀ p ∈ m, alookup "hash" p.2.properties = some (PVal.str p.1)

/-- First input feature of the double-load counterexample. -/
def feat1 : SrcFeature QG String := ⟨QG.ln [0, 1], fun _ => "A"⟩

/-- Second input feature of the double-load counterexample. -/
def feat2 : SrcFeature QG String := ⟨QG.ln [5, 6], fun _ => "B"⟩

/-- The builder after loading `feat1` into a fresh builder. -/
def bLoad1 : Builder QG Unit String := (Builder.empty QG Unit String).load Q1D [feat1]

/-- The builder after a second `load` call, with `feat2`, on `bLoad1`. -/
def bLoad2 : Builder QG Unit String := bLoad1.load Q1D [feat2]

/-- A one-ring loaded builder used as a concrete witness state: one ring with
id 0, its index entry, an empty linework store. -/
def bW : Builder QG Unit String :=
  ⟨[(0, QG.ln [0, 1])], [], [⟨(), ⟨0, fun _ => "A", QG.ln [0, 1]⟩⟩]⟩

/-- The left/right properties the witness state resolves for its single ring. -/
def prW : List (String × PVal String) :=
  [("hash", PVal.str "LINESTRING"),
   ("left_p", PVal.opt (some "A")), ("right_p", PVal.opt (some "A"))]

/-- The merged store produced by `build_linework` on the witness state. -/
def mW : List (String × MergedEntry QG String) :=
  [("LINESTRING", ⟨QG.ln [0, 1], prW ++ [("idx", PVal.nat 0)]⟩)]

/-- The builder produced by `build_linework` on the witness state. -/
def bWs : Builder QG Unit String := { bW with merged := mW }

/-- A pre-populated merged store holding a distinct entry under the hash the
witness ring writes to, to exhibit the overwrite of the isolated case. -/
def mPrev : List (String × MergedEntry QG String) := [("LINESTRING", ⟨QG.nil, []⟩)]

/-- The left/right properties resolved against an empty index (both sides null). -/
def prN : List (String × PVal String) :=
  [("hash", PVal.str "LINESTRING"),
   ("left_p", PVal.opt none), ("right_p", PVal.opt none)]

/-- The five-vertex collinear line of the specification's half-length
sampling example (x = 0,1,2,3,4). -/
def fiveLine : QG := QG.ln [0, 1, 2, 3, 4]

/-- The degenerate closed collinear ring (0),(1),(2),(0): every vertex
projects to at most half the ring's length. -/
def badRing : QG := QG.ln [0, 1, 2, 0]

/-! ### Dictionary lemmas -/

section DictLemmas

variable {K A : Type} [DecidableEq K]

theorem alookup_cons (p : K × A) (l : List (K × A)) (k : K) :
    alookup k (p :: l) = if p.1 = k then some p.2 else alookup k l := rfl

theorem alookup_isSome_iff (k : K) (m : List (K × A)) :
    (alookup k m).isSome ↔ k ∈ keysOf m := by
  induction m with
  | nil => simp [alookup, keysOf]
  | cons p l ih =>
      by_cases h : p.1 = k
      · simp [alookup, keysOf, h]
      · simp [alookup, keysOf, h, ih]
        intro hk
        exact absurd hk.symm h

theorem alookup_eq_none_iff (k : K) (m : List (K × A)) :
    alookup k m = none ↔ k ∉ keysOf m := by
  rw [← alookup_isSome_iff, Option.not_isSome_iff_eq_none]

theorem alookup_append_of_none (k : K) (m l : List (K × A)) (h : alookup k m = none) :
    alookup k (m ++ l) = alookup k l := by
  induction m with
  | nil => simp
  | cons p m ih =>
      rw [alookup_cons] at h
      by_cases hp : p.1 = k
      · simp [hp] at h
      · simpa [alookup_cons, hp] using ih (by simpa [hp] using h)

theorem alookup_append_of_isSome (k : K) (m l : List (K × A))
    (h : (alookup k m).isSome) : alookup k (m ++ l) = alookup k m := by
  induction m with
  | nil => simp [alookup] at h
  | cons p m ih =>
      by_cases hp : p.1 = k
      · simp [alookup_cons, hp]
      · rw [alookup_cons, if_neg hp] at h
        simpa [alookup_cons, hp] using ih h

theorem dictInsert_of_fresh (k : K) (v : A) (m : List (K × A))
    (h : alookup k m = none) : dictInsert k v m = m ++ [(k, v)] := by
  unfold dictInsert
  rw [h]
  rfl

theorem dictInsert_of_mem (k : K) (v : A) (m : List (K × A))
    (h : (alookup k m).isSome) :
    dictInsert k v m = m.map (fun p => if p.1 = k then (k, v) else p) := by
  unfold dictInsert
  rw [if_pos h]

theorem alookup_dictInsert_self (k : K) (v : A) (m : List (K × A)) :
    alookup k (dictInsert k v m) = some v := by
  unfold dictInsert
  split
  · rename_i h
    induction m with
    | nil => simp [alookup] at h
    | cons p l ih =>
        by_cases hp : p.1 = k
        · simp [alookup_cons, hp]
        · rw [alookup_cons, if_neg hp] at h
          simpa [alookup_cons, hp] using ih h
  · induction m with
    | nil => simp [alookup]
    | cons p l ih =>
        rename_i h
        rw [alookup_cons] at h
        by_cases hp : p.1 = k
        · simp [hp] at h
        · simpa [alookup_cons, hp] using ih (by simpa [hp] using h)

theorem alookup_map_replace (k k' : K) (v : A) (m : List (K × A)) (h : k' ≠ k) :
    alookup k' (m.map (fun p => if p.1 = k then (k, v) else p)) = alookup k' m := by
  induction m with
  | nil => rfl
  | cons p l ih =>
      rw [List.map_cons, alookup_cons, alookup_cons]
      by_cases hp : p.1 = k'
      · have hrep : (if p.1 = k then (k, v) else p) = p := by
          rw [if_neg]
          intro hk
          exact h (hp ▸ hk ▸ rfl)
        rw [hrep, if_pos hp, if_pos hp]
      · have hrep : (if p.1 = k then (k, v) else p).1 ≠ k' := by
          split
          · exact fun hk => h hk.symm
          · exact hp
        rw [if_neg hrep, if_neg hp, ih]

theorem alookup_dictInsert_ne (k k' : K) (v : A) (m : List (K × A)) (h : k' ≠ k) :
    alookup k' (dictInsert k v m) = alookup k' m := by
  unfold dictInsert
  split
  · exact alookup_map_replace k k' v m h
  · rename_i hmem
    have hn : ∀ l, alookup k' (m ++ l) = if (alookup k' m).isSome then alookup k' m
        else alookup k' l := by
      intro l
      by_cases hs : (alookup k' m).isSome
      · rw [if_pos hs]
        exact alookup_append_of_isSome k' m l hs
      · rw [if_neg hs]
        exact alookup_append_of_none k' m l (Option.not_isSome_iff_eq_none.mp hs)
    rw [hn]
    by_cases hs : (alookup k' m).isSome
    · rw [if_pos hs]
    · rw [if_neg hs, alookup_cons, if_neg (fun hk => h hk.symm)]
      exact (Option.not_isSome_iff_eq_none.mp hs).symm

theorem keysOf_dictInsert (k : K) (v : A) (m : List (K × A)) :
    keysOf (dictInsert k v m) =
      if (alookup k m).isSome then keysOf m else keysOf m ++ [k] := by
  unfold dictInsert
  split
  · unfold keysOf
    rw [List.map_map]
    apply List.map_congr_left
    intro p _
    by_cases hp : p.1 = k
    · simp [hp]
    · simp [hp]
  · simp [keysOf]

theorem alookup_dictInsert_isSome (k k' : K) (v : A) (m : List (K × A))
    (h : (alookup k' m).isSome) : (alookup k' (dictInsert k v m)).isSome := by
  by_cases hk : k' = k
  · subst hk
    rw [alookup_dictInsert_self]
    rfl
  · rwa [alookup_dictInsert_ne _ _ _ _ hk]

end DictLemmas

/-! ### Sequences of dictionary writes -/

section WriteLemmas

variable {K A : Type} [DecidableEq K]

theorem lastVal_cons (w : K × A) (ws : List (K × A)) (k : K) :
    lastVal (w :: ws) k = (lastVal ws k).or (if w.1 = k then some w.2 else none) := rfl

theorem lastVal_cons_ne (w : K × A) (ws : List (K × A)) (k : K) (h : w.1 ≠ k) :
    lastVal (w :: ws) k = lastVal ws k := by
  rw [lastVal_cons, if_neg h]
  exact Option.or_none

theorem lastVal_eq_none (W : List (K × A)) (k : K) (h : k ∉ keysOf W) :
    lastVal W k = none := by
  induction W with
  | nil => rfl
  | cons w ws ih =>
      have h1 : k ∉ keysOf ws := fun hk => h (by simp [keysOf] at hk ⊢; exact Or.inr hk)
      have h2 : w.1 ≠ k := fun hk => h (by simp [keysOf, hk])
      rw [lastVal_cons, ih h1, if_neg h2]
      rfl

theorem lastVal_append_single (W : List (K × A)) (h : K) (e : A) (k : K) :
    lastVal (W ++ [(h, e)]) k = if k = h then some e else lastVal W k := by
  induction W with
  | nil =>
      rw [List.nil_append, lastVal_cons]
      by_cases hk : k = h
      · rw [if_pos hk.symm, if_pos hk]
        rfl
      · rw [if_neg (fun hh => hk hh.symm), if_neg hk]
        rfl
  | cons w ws ih =>
      rw [List.cons_append, lastVal_cons, lastVal_cons, ih]
      by_cases hk : k = h
      · rw [if_pos hk, if_pos hk]
        rfl
      · rw [if_neg hk, if_neg hk]

theorem map_pair_self (m : List (K × A)) : m.map (fun p => (p.1, p.2)) = m := by
  induction m with
  | nil => rfl
  | cons p l ih => simp [ih]

theorem keysOf_map_replace (k : K) (v : A) (m : List (K × A)) :
    keysOf (m.map (fun p => if p.1 = k then (k, v) else p)) = keysOf m := by
  unfold keysOf
  rw [List.map_map]
  apply List.map_congr_left
  intro p _
  by_cases hp : p.1 = k
  · simp [hp]
  · simp [hp]

/-- Replaying a sequence of dictionary writes whose keys are all already
present replaces each value in place with the last written value. -/
theorem foldl_dictInsert_map (W : List (K × A)) :
    ∀ m : List (K × A), (∀ k ∈ keysOf W, (alookup k m).isSome) →
      W.foldl (fun acc w => dictInsert w.1 w.2 acc) m =
        m.map (fun p => (p.1, (lastVal W p.1).getD p.2)) := by
  induction W with
  | nil =>
      intro m _
      simp only [List.foldl_nil, lastVal, Option.getD_none]
      exact (map_pair_self m).symm
  | cons w W ih =>
      intro m hsub
      rw [List.foldl_cons]
      have hw : (alookup w.1 m).isSome := hsub w.1 (by simp [keysOf])
      rw [dictInsert_of_mem _ _ _ hw]
      rw [ih _ ?hsub]
      case hsub =>
        intro k hk
        rw [alookup_isSome_iff, keysOf_map_replace, ← alookup_isSome_iff]
        refine hsub k ?_
        simp only [keysOf, List.map_cons, List.mem_cons]
        exact Or.inr hk
      rw [List.map_map]
      apply List.map_congr_left
      intro p _
      by_cases hp : p.1 = w.1
      · simp only [Function.comp_apply, if_pos hp]
        rw [hp, lastVal_cons, if_pos rfl]
        cases hlv : lastVal W w.1 with
        | none => simp [hlv]
        | some v => simp [hlv]
      · simp only [Function.comp_apply, if_neg hp]
        rw [lastVal_cons_ne w W p.1 (fun hk => hp hk.symm)]

/-- Replaying a write sequence is the identity when every written key is
present and already holds the value of its last write. -/
theorem foldl_dictInsert_self (W m : List (K × A))
    (hsub : ∀ k ∈ keysOf W, (alookup k m).isSome)
    (hval : ∀ p ∈ m, ∀ v, lastVal W p.1 = some v → v = p.2) :
    W.foldl (fun acc w => dictInsert w.1 w.2 acc) m = m := by
  rw [foldl_dictInsert_map W m hsub]
  have hid : ∀ p ∈ m, (fun p : K × A => (p.1, (lastVal W p.1).getD p.2)) p = p := by
    intro p hp
    cases hlv : lastVal W p.1 with
    | none => simp [hlv]
    | some v => simp [hlv, hval p hp v hlv]
  rw [List.map_congr_left hid, map_pair_self]

end WriteLemmas

/-! ### Folds in the Option monad -/

section OptionFold

theorem foldlM_option_preserve {σ α : Type} (f : σ → α → Option σ) (P : σ → Prop)
    (hf : ∀ s a s', f s a = some s' → P s → P s') :
    ∀ (l : List α) (s s' : σ), l.foldlM f s = some s' → P s → P s' := by
  intro l
  induction l with
  | nil =>
      intro s s' h hp
      rw [List.foldlM_nil] at h
      cases h
      exact hp
  | cons a l ih =>
      intro s s' h hp
      rw [List.foldlM_cons] at h
      cases hfa : f s a with
      | none => rw [hfa] at h; cases h
      | some s1 =>
          rw [hfa] at h
          exact ih s1 s' h (hf s a s1 hfa hp)

theorem foldlM_option_congr {σ α : Type} (f : σ → α → Option σ)
    (l : List α) (s : σ) (hid : ∀ a ∈ l, f s a = some s) :
    l.foldlM f s = some s := by
  induction l with
  | nil => rfl
  | cons a l ih =>
      rw [List.foldlM_cons, hid a (by simp)]
      exact ih fun a ha => hid a (by simp [ha])

end OptionFold

/-! ### Behaviour of `processLine` and `build_step` -/

section StepLemmas

variable {G B C GJ V : Type}

theorem processLine_of_mem (O : GeoOps G B C GJ V) (E : List (IdxEntry G B V))
    (prop : String) (idx : Nat) (ring : G)
    (m : List (String × MergedEntry G V)) (L : G)
    (h : (alookup (centerHash O L) m).isSome) :
    processLine O E prop idx ring m L = some m := by
  have h' : (alookup (get_md5_hash O (O.wkt (get_center O L))) m).isSome := h
  simp only [processLine]
  rw [if_pos h']

theorem processLine_of_nobuf (O : GeoOps G B C GJ V) (E : List (IdxEntry G B V))
    (prop : String) (idx : Nat) (ring : G)
    (m : List (String × MergedEntry G V)) (L : G)
    (hb : O.intersects ring (O.buffer (get_center O L) (2/100)) = false) :
    processLine O E prop idx ring m L = some m := by
  simp only [processLine]
  split
  · rfl
  · rw [hb]
    simp

theorem processLine_of_flfalse (O : GeoOps G B C GJ V) (E : List (IdxEntry G B V))
    (prop : String) (idx : Nat) (ring : G)
    (m : List (String × MergedEntry G V)) (L : G) (fp lp : C)
    (hfp : (O.coords L).head? = some fp) (hlp : (O.coords L).getLast? = some lp)
    (hfl : (O.intersects ring (O.point fp) && O.intersects ring (O.point lp)) = false) :
    processLine O E prop idx ring m L = some m := by
  simp only [processLine]
  split
  · rfl
  · split
    · rw [hfp, hlp]
      simp [hfl]
    · rfl

theorem processLine_write (O : GeoOps G B C GJ V) (E : List (IdxEntry G B V))
    (prop : String) (idx : Nat) (ring : G)
    (m : List (String × MergedEntry G V)) (L : G) (fp lp : C)
    (pr : List (String × PVal V))
    (hfresh : alookup (centerHash O L) m = none)
    (hb : O.intersects ring (O.buffer (get_center O L) (2/100)) = true)
    (hfp : (O.coords L).head? = some fp) (hlp : (O.coords L).getLast? = some lp)
    (hfl : (O.intersects ring (O.point fp) && O.intersects ring (O.point lp)) = true)
    (hglr : get_left_right O E (centerHash O L) L prop = some pr) :
    processLine O E prop idx ring m L =
      some (m ++ [(centerHash O L,
        ⟨O.lineString L, dictInsert "idx" (PVal.nat idx) pr⟩)]) := by
  have hfresh' : alookup (get_md5_hash O (O.wkt (get_center O L))) m = none := hfresh
  have hglr' : get_left_right O E (get_md5_hash O (O.wkt (get_center O L))) L prop
      = some pr := hglr
  simp only [processLine]
  rw [if_neg (by simp [hfresh']), hb, if_pos rfl, hfp, hlp]
  simp [hfl, hglr', centerHash, dictInsert_of_fresh _ _ _ hfresh']

theorem processLine_success (O : GeoOps G B C GJ V) (E : List (IdxEntry G B V))
    (prop : String) (idx : Nat) (ring : G)
    (m : List (String × MergedEntry G V)) (L : G)
    (m' : List (String × MergedEntry G V))
    (hpl : processLine O E prop idx ring m L = some m') :
    ((alookup (centerHash O L) m).isSome ∧ m' = m)
    ∨ (alookup (centerHash O L) m = none
        ∧ O.intersects ring (O.buffer (get_center O L) (2/100)) = false ∧ m' = m)
    ∨ (∃ fp lp, alookup (centerHash O L) m = none
        ∧ O.intersects ring (O.buffer (get_center O L) (2/100)) = true
        ∧ (O.coords L).head? = some fp ∧ (O.coords L).getLast? = some lp
        ∧ (((O.intersects ring (O.point fp) && O.intersects ring (O.point lp)) = false
              ∧ m' = m)
           ∨ ((O.intersects ring (O.point fp) && O.intersects ring (O.point lp)) = true
              ∧ ∃ pr, get_left_right O E (centerHash O L) L prop = some pr
                ∧ m' = m ++ [(centerHash O L,
                    ⟨O.lineString L, dictInsert "idx" (PVal.nat idx) pr⟩)]))) := by
  by_cases h1 : (alookup (centerHash O L) m).isSome
  · left
    refine ⟨h1, ?_⟩
    rw [processLine_of_mem O E prop idx ring m L h1] at hpl
    exact (Option.some.injEq _ _ ▸ hpl).symm
  · have h1' : alookup (centerHash O L) m = none := Option.not_isSome_iff_eq_none.mp h1
    have h1n : alookup (get_md5_hash O (O.wkt (get_center O L))) m = none := h1'
    cases hb : O.intersects ring (O.buffer (get_center O L) (2/100)) with
    | false =>
        right; left
        refine ⟨h1', rfl, ?_⟩
        rw [processLine_of_nobuf O E prop idx ring m L hb] at hpl
        exact (Option.some.injEq _ _ ▸ hpl).symm
    | true =>
        right; right
        cases hfp : (O.coords L).head? with
        | none =>
            exfalso
            simp only [processLine] at hpl
            rw [if_neg (by simp [h1n]), hb, if_pos rfl, hfp] at hpl
            cases hlp : (O.coords L).getLast? <;> rw [hlp] at hpl <;> simp at hpl
        | some fp =>
            cases hlp : (O.coords L).getLast? with
            | none =>
                exfalso
                simp only [processLine] at hpl
                rw [if_neg (by simp [h1n]), hb, if_pos rfl, hfp, hlp] at hpl
                simp at hpl
            | some lp =>
                refine ⟨fp, lp, h1', rfl, rfl, rfl, ?_⟩
                cases hfl : (O.intersects ring (O.point fp)
                    && O.intersects ring (O.point lp)) with
                | false =>
                    left
                    refine ⟨rfl, ?_⟩
                    rw [processLine_of_flfalse O E prop idx ring m L fp lp hfp hlp hfl]
                      at hpl
                    exact (Option.some.injEq _ _ ▸ hpl).symm
                | true =>
                    right
                    refine ⟨rfl, ?_⟩
                    simp only [processLine] at hpl
                    rw [if_neg (by simp [h1n]), hb, if_pos rfl, hfp, hlp] at hpl
                    simp only [hfl, if_true] at hpl
                    cases hglr : get_left_right O E
                        (get_md5_hash O (O.wkt (get_center O L))) L prop with
                    | none => rw [hglr] at hpl; simp at hpl
                    | some pr =>
                        rw [hglr] at hpl
                        simp only [Option.map_some'] at hpl
                        have hglr2 : get_left_right O E (centerHash O L) L prop
                            = some pr := hglr
                        refine ⟨pr, hglr2, ?_⟩
                        have hm : m' = dictInsert (get_md5_hash O (O.wkt (get_center O L)))
                            ⟨O.lineString L, dictInsert "idx" (PVal.nat idx) pr⟩ m :=
                          (Option.some.injEq _ _ ▸ hpl).symm
                        rw [hm, dictInsert_of_fresh _ _ _ h1n]
                        rfl

theorem build_step_isolated (O : GeoOps G B C GJ V) (RM : List (Nat × G))
    (E : List (IdxEntry G B V)) (prop : String) (idx : Nat) (ring : G)
    (m : List (String × MergedEntry G V))
    (h : isolatedCase (ixIntersects O E ring) idx = true) :
    build_step O RM E prop m (idx, ring) =
      (caseAEntry O E prop idx ring).map fun e =>
        dictInsert (centerHash O ring) e m := by
  simp only [build_step, caseAEntry, centerHash, get_md5_hash, get_center]
  rw [if_pos h]
  cases hglr : get_left_right O E (O.md5 (O.wkt (O.interpolateHalf ring))) ring prop <;>
    simp [hglr]

theorem build_step_shared (O : GeoOps G B C GJ V) (RM : List (Nat × G))
    (E : List (IdxEntry G B V)) (prop : String) (idx : Nat) (ring : G)
    (m : List (String × MergedEntry G V))
    (h : isolatedCase (ixIntersects O E ring) idx = false) :
    build_step O RM E prop m (idx, ring) =
      (meshLines O RM E ring).bind fun Ls =>
        Ls.foldlM (processLine O E prop idx ring) m := by
  simp only [build_step, meshLines]
  rw [h]
  cases hmm : (ixIntersects O E ring).mapM (fun f => alookup f.id RM) <;> simp [hmm]

end StepLemmas

/-! ### Behaviour of `Builder.load` -/

section LoadLemmas

variable {G B C GJ V : Type}

theorem enumFrom_cons {α : Type} (n : Nat) (a : α) (l : List α) :
    List.enumFrom n (a :: l) = (n, a) :: List.enumFrom (n + 1) l := rfl

theorem enumFrom_append {α : Type} (l1 l2 : List α) :
    ∀ n : Nat, List.enumFrom n (l1 ++ l2) =
      List.enumFrom n l1 ++ List.enumFrom (n + l1.length) l2 := by
  induction l1 with
  | nil => intro n; simp [List.enumFrom]
  | cons a l1 ih =>
      intro n
      rw [List.cons_append, enumFrom_cons, enumFrom_cons, ih (n + 1), List.cons_append]
      have : n + 1 + l1.length = n + (l1.length + 1) := by omega
      rw [this]
      rfl

theorem enumFrom_map_fst {α β : Type} (f : α → β) (l : List α) :
    ∀ n : Nat, List.enumFrom n (l.map f) =
      (List.enumFrom n l).map fun p => (p.1, f p.2) := by
  induction l with
  | nil => intro n; rfl
  | cons a l ih =>
      intro n
      rw [List.map_cons, enumFrom_cons, enumFrom_cons, ih (n + 1), List.map_cons]

theorem keys_enumFrom_lt {α : Type} (l : List α) :
    ∀ (n k : Nat), k ∈ keysOf (List.enumFrom n l) → k < n + l.length := by
  induction l with
  | nil => intro n k h; simp [keysOf, List.enumFrom] at h
  | cons a l ih =>
      intro n k h
      rw [enumFrom_cons] at h
      simp only [keysOf, List.map_cons, List.mem_cons] at h
      rcases h with h | h
      · subst h
        simp only [List.length_cons]
        omega
      · have := ih (n + 1) k h
        simp only [List.length_cons]
        omega

theorem ringsFromTriples_map {G V : Type} (n : Nat) (rs : List G)
    (props : String → V) (geom : G) :
    ringsFromTriples n (rs.map fun r => (r, props, geom)) = List.enumFrom n rs := by
  unfold ringsFromTriples
  rw [enumFrom_map_fst, List.map_map]
  exact map_pair_self _

theorem entriesFromTriples_map {G B C GJ V : Type} (O : GeoOps G B C GJ V) (n : Nat)
    (rs : List G) (props : String → V) (geom : G) :
    entriesFromTriples O n (rs.map fun r => (r, props, geom)) =
      (List.enumFrom n rs).map fun p => ⟨O.bounds p.2, ⟨p.1, props, geom⟩⟩ := by
  unfold entriesFromTriples
  rw [enumFrom_map_fst, List.map_map]
  rfl

theorem ringsFromTriples_append {G V : Type} (n : Nat)
    (T1 T2 : List (G × (String → V) × G)) :
    ringsFromTriples n (T1 ++ T2) =
      ringsFromTriples n T1 ++ ringsFromTriples (n + T1.length) T2 := by
  unfold ringsFromTriples
  rw [enumFrom_append, List.map_append]

theorem entriesFromTriples_append (O : GeoOps G B C GJ V) (n : Nat)
    (T1 T2 : List (G × (String → V) × G)) :
    entriesFromTriples O n (T1 ++ T2) =
      entriesFromTriples O n T1 ++ entriesFromTriples O (n + T1.length) T2 := by
  unfold entriesFromTriples
  rw [enumFrom_append, List.map_append]

theorem keys_ringsFromTriples_lt {G V : Type} (T : List (G × (String → V) × G))
    (n k : Nat) (h : k ∈ keysOf (ringsFromTriples n T)) : k < n + T.length := by
  have he : keysOf (ringsFromTriples n T) = keysOf (List.enumFrom n T) := by
    unfold ringsFromTriples keysOf
    rw [List.map_map]
    apply List.map_congr_left
    intro p _
    rfl
  rw [he] at h
  exact keys_enumFrom_lt T n k h

theorem load_ring_fold (O : GeoOps G B C GJ V) (props : String → V) (geom : G)
    (rs : List G) :
    ∀ (b : Builder G B V) (n : Nat), (∀ k ∈ keysOf b.rings, k < n) →
      rs.foldl (load_ring_step O props geom) (b, n) =
        ({ b with
            rings := b.rings ++ List.enumFrom n rs,
            index := b.index ++ (List.enumFrom n rs).map
              (fun p => ⟨O.bounds p.2, ⟨p.1, props, geom⟩⟩) },
         n + rs.length) := by
  induction rs with
  | nil =>
      intro b n _
      simp [List.enumFrom]
  | cons r rs ih =>
      intro b n h
      rw [List.foldl_cons]
      have hfresh : alookup n b.rings = none := by
        rw [alookup_eq_none_iff]
        intro hk
        exact absurd (h n hk) (lt_irrefl n)
      have hstep : load_ring_step O props geom (b, n) r =
          ({ b with
              rings := b.rings ++ [(n, r)],
              index := b.index ++ [⟨O.bounds r, ⟨n, props, geom⟩⟩] }, n + 1) := by
        simp [load_ring_step, dictInsert_of_fresh _ _ _ hfresh]
      rw [hstep, ih _ (n + 1) ?hlt]
      case hlt =>
        intro k hk
        simp only [keysOf, List.map_append, List.mem_append, List.map_cons,
          List.map_nil, List.mem_singleton] at hk
        rcases hk with hk | hk
        · exact Nat.lt_succ_of_lt (h k hk)
        · have hk2 : k = n := hk
          omega
      rw [enumFrom_cons]
      simp [List.append_assoc]
      omega

theorem load_geom_fold (O : GeoOps G B C GJ V) (props : String → V)
    (gs : List G) :
    ∀ (b : Builder G B V) (n : Nat), (∀ k ∈ keysOf b.rings, k < n) →
      gs.foldl (load_geom_step O props) (b, n) =
        ({ b with
            rings := b.rings ++ ringsFromTriples n (geomTriples O props gs),
            index := b.index ++ entriesFromTriples O n (geomTriples O props gs) },
         n + (geomTriples O props gs).length) := by
  induction gs with
  | nil =>
      intro b n _
      rw [List.foldl_nil]
      simp only [geomTriples, List.flatMap_nil, ringsFromTriples, entriesFromTriples,
        List.enumFrom, List.map_nil, List.append_nil, List.length_nil, Nat.add_zero]
  | cons g gs ih =>
      intro b n h
      rw [List.foldl_cons]
      have hmid : load_geom_step O props (b, n) g =
          ({ b with
              rings := b.rings ++ List.enumFrom n (dump_rings O g),
              index := b.index ++ (List.enumFrom n (dump_rings O g)).map
                (fun p => ⟨O.bounds p.2, ⟨p.1, props, g⟩⟩) },
           n + (dump_rings O g).length) :=
        load_ring_fold O props g (dump_rings O g) b n h
      rw [hmid, ih _ _ ?hlt]
      case hlt =>
        intro k hk
        simp only [keysOf, List.map_append, List.mem_append] at hk
        rcases hk with hk | hk
        · exact Nat.lt_of_lt_of_le (h k hk) (Nat.le_add_right _ _)
        · exact keys_enumFrom_lt _ n k hk
      have htr : geomTriples O props (g :: gs) =
          ((dump_rings O g).map fun r => (r, props, g)) ++ geomTriples O props gs := by
        simp [geomTriples]
      rw [htr, ringsFromTriples_append, entriesFromTriples_append,
        ringsFromTriples_map, entriesFromTriples_map]
      simp [List.append_assoc, List.length_map, Nat.add_assoc]

theorem load_feature_fold (O : GeoOps G B C GJ V) (features : List (SrcFeature G V)) :
    ∀ (b : Builder G B V) (n : Nat), (∀ k ∈ keysOf b.rings, k < n) →
      features.foldl (load_feature_step O) (b, n) =
        ({ b with
            rings := b.rings ++ ringsFromTriples n (specRingSeq O features),
            index := b.index ++ entriesFromTriples O n (specRingSeq O features) },
         n + (specRingSeq O features).length) := by
  induction features with
  | nil =>
      intro b n _
      rw [List.foldl_nil]
      simp only [specRingSeq, List.flatMap_nil, ringsFromTriples, entriesFromTriples,
        List.enumFrom, List.map_nil, List.append_nil, List.length_nil, Nat.add_zero]
  | cons f fs ih =>
      intro b n h
      rw [List.foldl_cons]
      have hstep : load_feature_step O (b, n) f =
          ({ b with
              rings := b.rings ++ ringsFromTriples n
                (geomTriples O f.properties (dump O f.geometry)),
              index := b.index ++ entriesFromTriples O n
                (geomTriples O f.properties (dump O f.geometry)) },
           n + (geomTriples O f.properties (dump O f.geometry)).length) :=
        load_geom_fold O f.properties (dump O f.geometry) b n h
      rw [hstep, ih _ _ ?hlt]
      case hlt =>
        intro k hk
        simp only [keysOf, List.map_append, List.mem_append] at hk
        rcases hk with hk | hk
        · exact Nat.lt_of_lt_of_le (h k hk) (Nat.le_add_right _ _)
        · exact keys_ringsFromTriples_lt _ n k hk
      have hsr : specRingSeq O (f :: fs) =
          geomTriples O f.properties (dump O f.geometry) ++ specRingSeq O fs := by
        simp only [specRingSeq, List.flatMap_cons]
        rfl
      rw [hsr, ringsFromTriples_append, entriesFromTriples_append]
      simp [List.append_assoc, Nat.add_assoc]

end LoadLemmas

/-! ### Claim theorems -/

/-- C1: the claim says a second `load` call continues ring ids from the number
of rings already stored, and that no Ring or IndexEntry created by an earlier
call is ever mutated, overwritten or removed.  The code resets its local id
counter to 0 at the start of every call (`idx = 0` inside `load`), so the
second call reassigns id 0 and overwrites the first call's ring; evaluated
here at a concrete two-call input (one single-ring feature per call): after
the second call the store still has only key 0 and ring 0 is the second
file's ring, contradicting both parts of the claim, while the code's own
docstring says many different files can be loaded. -/
theorem c1_load_id_reset :
    bLoad1.rings = [(0, QG.ln [0, 1])]
    ∧ bLoad2.rings = [(0, QG.ln [5, 6])]
    ∧ keysOf bLoad2.rings = [0]
    ∧ alookup 0 bLoad2.rings ≠ some (QG.ln [0, 1]) := by
  refine ⟨rfl, rfl, rfl, ?_⟩
  intro h
  have h2 : some (QG.ln [5, 6]) = some (QG.ln [0, 1]) := h
  have h3 : QG.ln [5, 6] = QG.ln [0, 1] := by injection h2
  have h4 : ([5, 6] : List ℚ) = [0, 1] := by injection h3
  have h5 : (5 : ℚ) = 0 := by injection h4
  norm_num at h5

/-- C7: for every feature read by `load`, the geometry is decomposed into one
singlepart polygon per part, each polygon contributes its exterior ring first
and then each interior ring in order, and the k-th extracted ring overall is
assigned id k, stored in the rings dictionary, and inserted into the spatial
index under its bounding box with payload (id, the feature's attribute map,
the parent polygon).  Proved as: `load` on a fresh builder is exactly the
enumeration of the specification's ring sequence `specRingSeq`. -/
theorem c7_load_matches_spec {G B C GJ V : Type} (O : GeoOps G B C GJ V)
    (features : List (SrcFeature G V)) :
    (Builder.empty G B V).load O features =
      ⟨ringsFromTriples 0 (specRingSeq O features),
       [],
       entriesFromTriples O 0 (specRingSeq O features)⟩ := by
  unfold Builder.load
  rw [load_feature_fold O features (Builder.empty G B V) 0 ?hlt]
  case hlt =>
    intro k hk
    simp [Builder.empty, keysOf] at hk
  rfl

/-- C8: the exported linework is one Feature record per merged entry, of the
form (type "Feature", id the entry's hash key, geometry the stored line's
interchange encoding, properties the stored attribute map), in store order;
and dictionary writes keep the key order of the store equal to the order of
first successful writes: a write appends a fresh key at the end and leaves
the position of an existing key unchanged. -/
theorem c8_linework_export {G B C GJ V : Type} (O : GeoOps G B C GJ V) :
    (∀ b : Builder G B V,
      Builder.linework O b = b.merged.map fun p =>
        ⟨"Feature", p.1, O.geoInterface p.2.geometry, p.2.properties⟩)
    ∧ (∀ (k : String) (v : MergedEntry G V) (m : List (String × MergedEntry G V)),
        keysOf (dictInsert k v m) =
          if k ∈ keysOf m then keysOf m else keysOf m ++ [k]) := by
  constructor
  · intro b
    rfl
  · intro k v m
    rw [keysOf_dictInsert]
    by_cases h : k ∈ keysOf m
    · rw [if_pos ((alookup_isSome_iff k m).mpr h), if_pos h]
    · rw [if_neg (fun hs => h ((alookup_isSome_iff k m).mp hs)), if_neg h]

/-- C5: when neighbour discovery returns exactly one candidate and its id is
the current ring's id, `build_linework` stores the ring as a single line
under the content hash of the ring's own center point, with sidedness
resolved from the ring itself, the ring's id recorded under the idx key, and
any entry already present under that hash overwritten (the new value is
stored unconditionally). -/
theorem c5_isolated_store {G B C GJ V : Type} (O : GeoOps G B C GJ V)
    (RM : List (Nat × G)) (E : List (IdxEntry G B V)) (prop : String)
    (idx : Nat) (ring : G) (m : List (String × MergedEntry G V))
    (f : Payload G V) (pr : List (String × PVal V))
    (hone : ixIntersects O E ring = [f]) (hid : f.id = idx)
    (hglr : get_left_right O E (centerHash O ring) ring prop = some pr) :
    build_step O RM E prop m (idx, ring) =
      some (dictInsert (centerHash O ring)
        ⟨O.lineString ring, dictInsert "idx" (PVal.nat idx) pr⟩ m)
    ∧ alookup (centerHash O ring) (dictInsert (centerHash O ring)
        ⟨O.lineString ring, dictInsert "idx" (PVal.nat idx) pr⟩ m) =
      some ⟨O.lineString ring, dictInsert "idx" (PVal.nat idx) pr⟩
    ∧ alookup "idx" (dictInsert "idx" (PVal.nat idx) pr) = some (PVal.nat idx) := by
  have hiso : isolatedCase (ixIntersects O E ring) idx = true := by
    rw [hone]
    simp [isolatedCase, hid]
  refine ⟨?_, alookup_dictInsert_self _ _ _, alookup_dictInsert_self _ _ _⟩
  rw [build_step_isolated O RM E prop idx ring m hiso]
  unfold caseAEntry
  rw [hglr]
  rfl

/-- Witness for C5: the single ring of the witness state is isolated, and its
store overwrites the pre-existing distinct entry under the same hash. -/
theorem c5_isolated_store_witness :
    build_step Q1D bW.rings bW.index "P" mPrev (0, QG.ln [0, 1]) =
      some (dictInsert (centerHash Q1D (QG.ln [0, 1]))
        ⟨Q1D.lineString (QG.ln [0, 1]), dictInsert "idx" (PVal.nat 0) prW⟩ mPrev)
    ∧ alookup (centerHash Q1D (QG.ln [0, 1]))
        (dictInsert (centerHash Q1D (QG.ln [0, 1]))
          ⟨Q1D.lineString (QG.ln [0, 1]), dictInsert "idx" (PVal.nat 0) prW⟩ mPrev) =
      some ⟨Q1D.lineString (QG.ln [0, 1]), dictInsert "idx" (PVal.nat 0) prW⟩
    ∧ alookup "idx" (dictInsert "idx" (PVal.nat 0) prW) = some (PVal.nat 0) :=
  c5_isolated_store Q1D bW.rings bW.index "P" 0 (QG.ln [0, 1]) mPrev
    ⟨0, fun _ => "A", QG.ln [0, 1]⟩ prW rfl rfl (by decide)

/-- C2: in the shared/overlapping case of `build_linework`, a merged line is
stored if and only if (a) its center hash is not already a key of the store,
(b) the ring intersects the 0.02-radius disc around the line's center point,
and (c) both the first and the last point of the line lie on the ring — and
an entry already present under any key is never changed, so the ring
processed earliest keeps the recorded originating id for a shared edge.
Stated about `processLine`, the per-line body of the shared case, conditional
on the body completing (its exceptional exits are claims C9's territory). -/
theorem c2_shared_accept {G B C GJ V : Type} (O : GeoOps G B C GJ V)
    (E : List (IdxEntry G B V)) (prop : String) (idx : Nat) (ring : G)
    (m : List (String × MergedEntry G V)) (L : G)
    (m' : List (String × MergedEntry G V)) (fp lp : C)
    (hfp : (O.coords L).head? = some fp) (hlp : (O.coords L).getLast? = some lp)
    (hpl : processLine O E prop idx ring m L = some m') :
    (∀ k v, alookup k m = some v → alookup k m' = some v)
    ∧ ((alookup (centerHash O L) m = none
        ∧ O.intersects ring (O.buffer (get_center O L) (2/100)) = true
        ∧ O.intersects ring (O.point fp) = true
        ∧ O.intersects ring (O.point lp) = true)
       ↔ (∃ pr, get_left_right O E (centerHash O L) L prop = some pr
          ∧ m' = m ++ [(centerHash O L,
              ⟨O.lineString L, dictInsert "idx" (PVal.nat idx) pr⟩)])) := by
  have hs := processLine_success O E prop idx ring m L m' hpl
  constructor
  · intro k v hk
    rcases hs with ⟨_, rfl⟩ | ⟨_, _, rfl⟩ | ⟨fp', lp', hfresh, _, _, _, hsub⟩
    · exact hk
    · exact hk
    · rcases hsub with ⟨_, rfl⟩ | ⟨_, pr, _, rfl⟩
      · exact hk
      · rw [alookup_append_of_isSome k m _ (by rw [hk]; rfl), hk]
  · constructor
    · rintro ⟨hfresh, hb, hf, hl⟩
      rcases hs with ⟨hmem, _⟩ | ⟨_, hbf, _⟩ | ⟨fp', lp', _, _, hfp', hlp', hsub⟩
      · rw [hfresh] at hmem
        cases hmem
      · rw [hb] at hbf
        cases hbf
      · have hfe : fp' = fp := by
          rw [hfp] at hfp'
          exact (Option.some.injEq _ _ ▸ hfp').symm
        have hle : lp' = lp := by
          rw [hlp] at hlp'
          exact (Option.some.injEq _ _ ▸ hlp').symm
        subst hfe
        subst hle
        rcases hsub with ⟨hff, _⟩ | ⟨_, pr, hglr, hm⟩
        · rw [hf, hl] at hff
          cases hff
        · exact ⟨pr, hglr, hm⟩
    · rintro ⟨pr, hglr, hm⟩
      have hlen : m'.length = m.length + 1 := by
        rw [hm]
        simp
      rcases hs with ⟨hmem, hmm⟩ | ⟨hfresh, hbf, hmm⟩ | ⟨fp', lp', hfresh, hb, hfp', hlp', hsub⟩
      · rw [hmm] at hlen
        omega
      · rw [hmm] at hlen
        omega
      · have hfe : fp' = fp := by
          rw [hfp] at hfp'
          exact (Option.some.injEq _ _ ▸ hfp').symm
        have hle : lp' = lp := by
          rw [hlp] at hlp'
          exact (Option.some.injEq _ _ ▸ hlp').symm
        subst hfe
        subst hle
        rcases hsub with ⟨hff, hmm⟩ | ⟨hff, _⟩
        · rw [hmm] at hlen
          omega
        · have hand := hff
          rw [Bool.and_eq_true] at hand
          exact ⟨hfresh, hb, hand.1, hand.2⟩

/-- Witness for C2: a concrete shared-case line on the witness state passes
all three acceptance conditions against an empty store and is appended. -/
theorem c2_shared_accept_witness :
    (∀ k v, alookup k ([] : List (String × MergedEntry QG String)) = some v →
      alookup k [("LINESTRING", (⟨QG.ln [0, 1],
        prN ++ [("idx", PVal.nat 0)]⟩ : MergedEntry QG String))] = some v)
    ∧ ((alookup (centerHash Q1D (QG.ln [0, 1]))
          ([] : List (String × MergedEntry QG String)) = none
        ∧ Q1D.intersects (QG.ln [0, 1])
            (Q1D.buffer (get_center Q1D (QG.ln [0, 1])) (2/100)) = true
        ∧ Q1D.intersects (QG.ln [0, 1]) (Q1D.point 0) = true
        ∧ Q1D.intersects (QG.ln [0, 1]) (Q1D.point 1) = true)
       ↔ (∃ pr, get_left_right Q1D [] (centerHash Q1D (QG.ln [0, 1]))
            (QG.ln [0, 1]) "P" = some pr
          ∧ [("LINESTRING", (⟨QG.ln [0, 1],
              prN ++ [("idx", PVal.nat 0)]⟩ : MergedEntry QG String))] =
            [] ++ [(centerHash Q1D (QG.ln [0, 1]),
              ⟨Q1D.lineString (QG.ln [0, 1]), dictInsert "idx" (PVal.nat 0) pr⟩)])) :=
  c2_shared_accept Q1D [] "P" 0 (QG.ln [0, 1]) [] (QG.ln [0, 1])
    [("LINESTRING", ⟨QG.ln [0, 1], prN ++ [("idx", PVal.nat 0)]⟩)] 0 1
    rfl rfl (by decide)

/-- C6 (amended): whenever the center-sampling step succeeds (in particular
for every two-vertex line, and for every line some vertex of which projects
past half the length), the sidedness resolver returns a map with exactly the
keys hash, left_<lowercased property> and right_<lowercased property>, whose
hash entry is the hash argument supplied by the caller (at both call sites
the content hash of the line's own center point); when the candidate search
for a side's offset sample point returns nothing, that side's value is null
and no error is raised. -/
theorem c6_resolver_shape {G B C GJ V : Type} (O : GeoOps G B C GJ V)
    (E : List (IdxEntry G B V)) (hash : String) (line : G) (prop : String)
    (cs : G) (hcs : line_center_sample O line = some cs) :
    get_left_right O E hash line prop = some
      [("hash", PVal.str hash),
       ("left_" ++ pyLower prop, PVal.opt (get_side O E
          (get_center O (O.parallel_offset cs (1/100) true)) prop)),
       ("right_" ++ pyLower prop, PVal.opt (get_side O E
          (get_center O (O.parallel_offset cs (1/100) false)) prop))]
    ∧ (∀ r, get_left_right O E hash line prop = some r →
        keysOf r = ["hash", "left_" ++ pyLower prop, "right_" ++ pyLower prop]
        ∧ alookup "hash" r = some (PVal.str hash))
    ∧ (∀ pnt : G, ixIntersects O E pnt = [] → get_side O E pnt prop = none) := by
  have h1 : get_left_right O E hash line prop = some
      [("hash", PVal.str hash),
       ("left_" ++ pyLower prop, PVal.opt (get_side O E
          (get_center O (O.parallel_offset cs (1/100) true)) prop)),
       ("right_" ++ pyLower prop, PVal.opt (get_side O E
          (get_center O (O.parallel_offset cs (1/100) false)) prop))] := by
    unfold get_left_right
    rw [hcs]
    rfl
  refine ⟨h1, ?_, ?_⟩
  · intro r hr
    rw [h1] at hr
    have hr2 := (Option.some.injEq _ _ ▸ hr).symm
    subst hr2
    constructor
    · rfl
    · rfl
  · intro pnt hp
    unfold get_side
    rw [hp]

/-- Witness for C6 on a concrete two-vertex line against an empty index:
both sides resolve to null. -/
theorem c6_resolver_shape_witness :
    get_left_right Q1D [] "LINESTRING" (QG.ln [0, 1]) "P" = some
      [("hash", PVal.str "LINESTRING"),
       ("left_" ++ pyLower "P", PVal.opt (get_side Q1D []
          (get_center Q1D (Q1D.parallel_offset (QG.ln [0, 1]) (1/100) true)) "P")),
       ("right_" ++ pyLower "P", PVal.opt (get_side Q1D []
          (get_center Q1D (Q1D.parallel_offset (QG.ln [0, 1]) (1/100) false)) "P"))]
    ∧ (∀ r, get_left_right Q1D [] "LINESTRING" (QG.ln [0, 1]) "P" = some r →
        keysOf r = ["hash", "left_" ++ pyLower "P", "right_" ++ pyLower "P"]
        ∧ alookup "hash" r = some (PVal.str "LINESTRING"))
    ∧ (∀ pnt : QG, ixIntersects Q1D [] pnt = [] → get_side Q1D [] pnt "P" = none) :=
  c6_resolver_shape Q1D [] "LINESTRING" (QG.ln [0, 1]) "P" (QG.ln [0, 1]) rfl

theorem centerLoop_eq_findIdx {C : Type} (proj : C → ℚ) (half : ℚ) :
    ∀ (l : List C) (prev : C),
      centerLoop proj half prev l =
        match l.findIdx? (fun c => decide (half < proj c)) with
        | none => none
        | some 0 => (l.get? 0).map fun c => (prev, c)
        | some (i + 1) =>
            (l.get? i).bind fun a => (l.get? (i + 1)).map fun b => (a, b) := by
  intro l
  induction l with
  | nil => intro prev; rfl
  | cons c t ih =>
      intro prev
      rw [List.findIdx?_cons]
      by_cases hp : half < proj c
      · rw [if_pos (by simpa using hp)]
        simp only [centerLoop, if_pos hp]
        rfl
      · rw [if_neg (by simpa using hp)]
        simp only [centerLoop, if_neg hp]
        rw [ih c, List.findIdx?_succ]
        cases hfi : t.findIdx? (fun c => decide (half < proj c)) with
        | none => rfl
        | some j =>
            cases j with
            | zero => simp
            | succ i => simp

/-- C3 (amended): the claim describes the walk as using cumulative
distance-from-start; the code projects each vertex back onto the line
(`line.project(Point(p))`), which agrees with cumulative distance only when
each vertex's nearest location on the line is its own position.  As amended:
a two-vertex line is returned unchanged; otherwise the walk returns
`[vertex[i-1], vertex[i]]` for the smallest `i ≥ 1` whose projected distance
along the line exceeds half the total length, and returns no segment when no
vertex's projection exceeds half the length. -/
theorem c3_center_sample {G B C GJ V : Type} (O : GeoOps G B C GJ V) (line : G) :
    ((O.coords line).length = 2 → line_center_sample O line = some line)
    ∧ (∀ i a b, (O.coords line).length ≠ 2 →
        (O.coords line).findIdx?
          (fun c => decide (O.length line / 2 < O.project line (O.point c))) =
          some (i + 1) →
        (O.coords line).get? i = some a → (O.coords line).get? (i + 1) = some b →
        line_center_sample O line = some (O.mkLine [a, b]))
    ∧ ((O.coords line).length ≠ 2 →
        (O.coords line).findIdx?
          (fun c => decide (O.length line / 2 < O.project line (O.point c))) = none →
        line_center_sample O line = none) := by
  refine ⟨?_, ?_, ?_⟩
  · intro h2
    simp only [line_center_sample]
    rw [if_pos h2]
  · intro i a b hlen hfind hga hgb
    simp only [line_center_sample]
    rw [if_neg hlen]
    cases hcl : (O.coords line).getLast? with
    | none =>
        exfalso
        have hne : O.coords line ≠ [] := by
          intro h0
          rw [h0] at hga
          cases hga
        have hs := List.getLast?_isSome.mpr hne
        rw [hcl] at hs
        cases hs
    | some lst =>
        show Option.map (fun pr => O.mkLine [pr.1, pr.2])
            (centerLoop (fun p => O.project line (O.point p)) (O.length line / 2)
              lst (O.coords line)) = some (O.mkLine [a, b])
        rw [centerLoop_eq_findIdx, hfind]
        show Option.map (fun pr => O.mkLine [pr.1, pr.2])
            (((O.coords line).get? i).bind fun x =>
              Option.map (fun y => (x, y)) ((O.coords line).get? (i + 1))) =
          some (O.mkLine [a, b])
        rw [hga, hgb]
        rfl
  · intro hlen hfind
    simp only [line_center_sample]
    rw [if_neg hlen]
    cases hcl : (O.coords line).getLast? with
    | none => rfl
    | some lst =>
        show Option.map (fun pr => O.mkLine [pr.1, pr.2])
            (centerLoop (fun p => O.project line (O.point p)) (O.length line / 2)
              lst (O.coords line)) = none
        rw [centerLoop_eq_findIdx, hfind]
        rfl

/-- Evaluation of the projection-based first index on the five-vertex example
line: the first vertex projecting past half the length (2) is vertex 3. -/
theorem fiveLine_findIdx :
    (Q1D.coords fiveLine).findIdx?
      (fun c => decide (Q1D.length fiveLine / 2 < Q1D.project fiveLine (Q1D.point c))) =
      some 3 := by
  norm_num [fiveLine, Q1D, polyLen, project1D, proj1DGo, segBest, List.findIdx?]

/-- Witness for C3 (amended) at the specification's own example, the line
with vertices x = 0,1,2,3,4: the smallest vertex index whose projection
exceeds half the length (2) is 3, so the returned sample segment is
[vertex 2, vertex 3], the segment from x = 2 to x = 3. -/
theorem c3_center_sample_witness :
    line_center_sample Q1D fiveLine = some (Q1D.mkLine [2, 3]) :=
  (c3_center_sample Q1D fiveLine).2.1 2 2 3 (by decide) fiveLine_findIdx
    (by decide) (by decide)

/-- C3 counterexample: on the closed collinear ring (0),(1),(2),(0) the
claim's cumulative-distance rule mandates the segment [vertex 2, vertex 3]
(cumulative distances 0,1,2,4; half the length is 2; the smallest index
exceeding it is 3), but the code's projection-based walk finds no vertex
projecting past half the length and returns no segment at all. -/
theorem c3_center_sample_cex :
    specCumulativeCenterSample [0, 1, 2, 0] = some (2, 0)
    ∧ line_center_sample Q1D badRing = none := by
  constructor
  · norm_num [specCumulativeCenterSample, cumDists, polyLen, List.findIdx?, List.getD]
    decide
  · norm_num [badRing, line_center_sample, centerLoop, Q1D, polyLen, project1D,
      proj1DGo, segBest]

/-- C9: the center-sampling walk is not total on lines with more than two
vertices: on the closed collinear ring (0),(1),(2),(0) (first vertex equal
to last, four vertices) every vertex's projected distance along the ring is
at most half the ring's length, so the walk completes without returning a
segment (`None`), and the subsequent `parallel_offset` call inside the
sidedness resolver fails (modelled: the resolver returns `none`). -/
theorem c9_center_sample_not_total :
    (Q1D.coords badRing).length > 2
    ∧ (Q1D.coords badRing).head? = (Q1D.coords badRing).getLast?
    ∧ (∀ c ∈ Q1D.coords badRing,
        Q1D.project badRing (Q1D.point c) ≤ Q1D.length badRing / 2)
    ∧ line_center_sample Q1D badRing = none
    ∧ get_left_right Q1D [] "hash" badRing "PROP" = none := by
  refine ⟨by decide, by decide, ?_, ?_, ?_⟩
  · intro c hc
    simp only [Q1D, badRing, List.mem_cons, List.not_mem_nil, or_false] at hc
    rcases hc with rfl | rfl | rfl | rfl <;>
      norm_num [Q1D, badRing, project1D, proj1DGo, segBest, polyLen]
  · norm_num [badRing, line_center_sample, centerLoop, Q1D, polyLen, project1D,
      proj1DGo, segBest]
  · norm_num [badRing, get_left_right, line_center_sample, centerLoop, Q1D, polyLen,
      project1D, proj1DGo, segBest]

/-- C6 counterexample: the resolver does not always return a map — on the
degenerate closed collinear ring the center-sampling walk returns `None` and
the following `parallel_offset` call raises (modelled as `none`), so no map
with the three keys is produced. -/
theorem c6_resolver_shape_cex :
    get_left_right Q1D [] "h" badRing "NAME" = none := by
  norm_num [badRing, get_left_right, line_center_sample, centerLoop, Q1D, polyLen,
    project1D, proj1DGo, segBest]

theorem left_key_ne_idx (s : String) : ("left_" ++ s) ≠ "idx" := by
  intro h
  have hl := congrArg String.length h
  rw [String.length_append] at hl
  have h5 : "left_".length = 5 := rfl
  have h3 : "idx".length = 3 := rfl
  omega

theorem right_key_ne_idx (s : String) : ("right_" ++ s) ≠ "idx" := by
  intro h
  have hl := congrArg String.length h
  rw [String.length_append] at hl
  have h6 : "right_".length = 6 := rfl
  have h3 : "idx".length = 3 := rfl
  omega

theorem glr_entry_fields {G B C GJ V : Type} (O : GeoOps G B C GJ V)
    (E : List (IdxEntry G B V)) (hash : String) (line : G) (prop : String)
    (pr : List (String × PVal V))
    (hglr : get_left_right O E hash line prop = some pr) (idx : Nat) :
    alookup "hash" (dictInsert "idx" (PVal.nat idx) pr) = some (PVal.str hash)
    ∧ alookup "idx" (dictInsert "idx" (PVal.nat idx) pr) = some (PVal.nat idx) := by
  unfold get_left_right at hglr
  cases hcs : line_center_sample O line with
  | none =>
      rw [hcs] at hglr
      simp at hglr
  | some cs =>
      rw [hcs] at hglr
      simp only [Option.map_some'] at hglr
      have hpr := Option.some.injEq _ _ ▸ hglr
      subst hpr
      have hfresh : alookup "idx"
          [("hash", (PVal.str hash : PVal V)),
           ("left_" ++ pyLower prop, PVal.opt (get_side O E
              (get_center O (O.parallel_offset cs (1/100) true)) prop)),
           ("right_" ++ pyLower prop, PVal.opt (get_side O E
              (get_center O (O.parallel_offset cs (1/100) false)) prop))] = none := by
        rw [alookup_cons, if_neg (show ¬("hash" : String) = "idx" by decide),
          alookup_cons, if_neg (left_key_ne_idx (pyLower prop)), alookup_cons,
          if_neg (right_key_ne_idx (pyLower prop))]
        rfl
      rw [dictInsert_of_fresh _ _ _ hfresh]
      constructor
      · rfl
      · rw [alookup_append_of_none _ _ _ hfresh]
        rfl

theorem mem_dictInsert {K A : Type} [DecidableEq K] (k : K) (v : A)
    (m : List (K × A)) (p : K × A) (hp : p ∈ dictInsert k v m) :
    p = (k, v) ∨ p ∈ m := by
  unfold dictInsert at hp
  split at hp
  · rw [List.mem_map] at hp
    obtain ⟨q, hq, hrep⟩ := hp
    by_cases hqk : q.1 = k
    · rw [if_pos hqk] at hrep
      exact Or.inl hrep.symm
    · rw [if_neg hqk] at hrep
      exact Or.inr (hrep ▸ hq)
  · rcases List.mem_append.mp hp with hpm | hps
    · exact Or.inr hpm
    · rw [List.mem_singleton] at hps
      exact Or.inl hps

/-- C10: at every point during and after `build_linework`, every merged entry
records under its hash field its own store key, and both write paths (the
overwriting isolated-ring path and the fresh-key shared-edge path) record the
producing ring's id under the idx field: the first part states the
invariant's preservation with the id clause for one `build_step` (covering
both paths), the second its preservation across a whole `build_linework`
run. -/
theorem c10_entry_invariant {G B C GJ V : Type} :
    (∀ (O : GeoOps G B C GJ V) (RM : List (Nat × G)) (E : List (IdxEntry G B V))
       (prop : String) (m : List (String × MergedEntry G V)) (ir : Nat × G)
       (m' : List (String × MergedEntry G V)),
       build_step O RM E prop m ir = some m' → HashInv m →
         HashInv m'
         ∧ ∀ p ∈ m', p ∈ m ∨ alookup "idx" p.2.properties = some (PVal.nat ir.1))
    ∧ (∀ (O : GeoOps G B C GJ V) (prop : String) (b b' : Builder G B V),
       Builder.build_linework O prop b = some b' → HashInv b.merged →
         HashInv b'.merged) := by
  have hstep : ∀ (O : GeoOps G B C GJ V) (RM : List (Nat × G))
      (E : List (IdxEntry G B V)) (prop : String)
      (m : List (String × MergedEntry G V)) (ir : Nat × G)
      (m' : List (String × MergedEntry G V)),
      build_step O RM E prop m ir = some m' → HashInv m →
        HashInv m'
        ∧ ∀ p ∈ m', p ∈ m ∨ alookup "idx" p.2.properties = some (PVal.nat ir.1) := by
    intro O RM E prop m ir m' hbs hinv
    obtain ⟨idx, ring⟩ := ir
    cases hiso : isolatedCase (ixIntersects O E ring) idx with
    | true =>
        rw [build_step_isolated O RM E prop idx ring m hiso] at hbs
        unfold caseAEntry at hbs
        cases hglr : get_left_right O E (centerHash O ring) ring prop with
        | none =>
            rw [hglr] at hbs
            simp at hbs
        | some pr =>
            rw [hglr] at hbs
            simp only [Option.map_some'] at hbs
            have hm' : m' = dictInsert (centerHash O ring)
                ⟨O.lineString ring, dictInsert "idx" (PVal.nat idx) pr⟩ m :=
              (Option.some.injEq _ _ ▸ hbs).symm
            obtain ⟨hhash, hidx⟩ :=
              glr_entry_fields O E (centerHash O ring) ring prop pr hglr idx
            subst hm'
            constructor
            · intro p hp
              rcases mem_dictInsert _ _ _ _ hp with hpe | hpm
              · subst hpe
                exact hhash
              · exact hinv p hpm
            · intro p hp
              rcases mem_dictInsert _ _ _ _ hp with hpe | hpm
              · subst hpe
                exact Or.inr hidx
              · exact Or.inl hpm
    | false =>
        rw [build_step_shared O RM E prop idx ring m hiso] at hbs
        cases hml : meshLines O RM E ring with
        | none =>
            rw [hml] at hbs
            cases hbs
        | some Ls =>
            rw [hml] at hbs
            simp only [Option.some_bind] at hbs
            refine foldlM_option_preserve (processLine O E prop idx ring)
              (fun mm => HashInv mm
                ∧ ∀ p ∈ mm, p ∈ m ∨ alookup "idx" p.2.properties =
                    some (PVal.nat idx))
              ?_ Ls m m' hbs ⟨hinv, fun p hp => Or.inl hp⟩
            intro mm L mm' hplm hP
            obtain ⟨hinvm, hidxm⟩ := hP
            rcases processLine_success O E prop idx ring mm L mm' hplm with
              ⟨_, rfl⟩ | ⟨_, _, rfl⟩ | ⟨fp, lp, hfresh, hb, hfp, hlp, hsub⟩
            · exact ⟨hinvm, hidxm⟩
            · exact ⟨hinvm, hidxm⟩
            · rcases hsub with ⟨_, rfl⟩ | ⟨_, pr, hglr, rfl⟩
              · exact ⟨hinvm, hidxm⟩
              · obtain ⟨hhash, hidx⟩ :=
                  glr_entry_fields O E (centerHash O L) L prop pr hglr idx
                constructor
                · intro p hp
                  rcases List.mem_append.mp hp with hpm | hps
                  · exact hinvm p hpm
                  · rw [List.mem_singleton] at hps
                    subst hps
                    exact hhash
                · intro p hp
                  rcases List.mem_append.mp hp with hpm | hps
                  · exact hidxm p hpm
                  · rw [List.mem_singleton] at hps
                    subst hps
                    exact Or.inr hidx
  refine ⟨hstep, ?_⟩
  intro O prop b b' hb hinv
  unfold Builder.build_linework at hb
  cases hfold : b.rings.foldlM (build_step O b.rings b.index prop) b.merged with
  | none =>
      rw [hfold] at hb
      cases hb
  | some M =>
      rw [hfold] at hb
      simp only [Option.map_some'] at hb
      have hb' : b' = { b with merged := M } := (Option.some.injEq _ _ ▸ hb).symm
      subst hb'
      exact foldlM_option_preserve (build_step O b.rings b.index prop) HashInv
        (fun s a s' hs hP => (hstep O b.rings b.index prop s a s' hs hP).1)
        b.rings b.merged M hfold hinv

/-- Witness for C10: the invariant holds of the merged store that
`build_linework` produces on the concrete witness state. -/
theorem c10_entry_invariant_witness : HashInv bWs.merged :=
  c10_entry_invariant.2 Q1D "P" bW bWs rfl (fun p hp => absurd hp (List.not_mem_nil p))

theorem alookup_isSome_of_mem {K A : Type} [DecidableEq K]
    (m : List (K × A)) (p : K × A) (hp : p ∈ m) : (alookup p.1 m).isSome := by
  induction m with
  | nil => cases hp
  | cons q l ih =>
      rcases List.mem_cons.mp hp with hq | hq
      · subst hq
        rw [alookup_cons, if_pos rfl]
        rfl
      · by_cases hk : q.1 = p.1
        · rw [alookup_cons, if_pos hk]
          rfl
        · rw [alookup_cons, if_neg hk]
          exact ih hq

theorem mem_dictInsert_strong {K A : Type} [DecidableEq K] (k : K) (v : A)
    (m : List (K × A)) (p : K × A) (hp : p ∈ dictInsert k v m) :
    p = (k, v) ∨ (p ∈ m ∧ p.1 ≠ k) := by
  unfold dictInsert at hp
  split at hp
  · rw [List.mem_map] at hp
    obtain ⟨q, hq, hrep⟩ := hp
    by_cases hqk : q.1 = k
    · rw [if_pos hqk] at hrep
      exact Or.inl hrep.symm
    · rw [if_neg hqk] at hrep
      exact Or.inr ⟨hrep ▸ hq, hrep ▸ hqk⟩
  · rename_i hfresh
    rcases List.mem_append.mp hp with hpm | hps
    · refine Or.inr ⟨hpm, fun hk => ?_⟩
      have := alookup_isSome_of_mem m p hpm
      rw [hk] at this
      rw [Option.isSome_iff_exists] at this
      obtain ⟨w, hw⟩ := this
      exact hfresh (by rw [hw]; rfl)
    · rw [List.mem_singleton] at hps
      exact Or.inl hps

theorem processLine_keys_mono {G B C GJ V : Type} (O : GeoOps G B C GJ V)
    (E : List (IdxEntry G B V)) (prop : String) (idx : Nat) (ring : G)
    (m : List (String × MergedEntry G V)) (L : G)
    (m' : List (String × MergedEntry G V))
    (hpl : processLine O E prop idx ring m L = some m')
    (k : String) (hk : (alookup k m).isSome) : (alookup k m').isSome := by
  rcases processLine_success O E prop idx ring m L m' hpl with
    ⟨_, rfl⟩ | ⟨_, _, rfl⟩ | ⟨fp, lp, _, _, _, _, hsub⟩
  · exact hk
  · exact hk
  · rcases hsub with ⟨_, rfl⟩ | ⟨_, pr, _, rfl⟩
    · exact hk
    · rw [alookup_append_of_isSome k m _ hk]
      exact hk

theorem processLine_new_keys {G B C GJ V : Type} (O : GeoOps G B C GJ V)
    (E : List (IdxEntry G B V)) (prop : String) (idx : Nat) (ring : G)
    (m : List (String × MergedEntry G V)) (L : G)
    (m' : List (String × MergedEntry G V))
    (hpl : processLine O E prop idx ring m L = some m')
    (p : String × MergedEntry G V) (hp : p ∈ m') :
    p ∈ m ∨ alookup p.1 m = none := by
  rcases processLine_success O E prop idx ring m L m' hpl with
    ⟨_, rfl⟩ | ⟨_, _, rfl⟩ | ⟨fp, lp, hfresh, _, _, _, hsub⟩
  · exact Or.inl hp
  · exact Or.inl hp
  · rcases hsub with ⟨_, rfl⟩ | ⟨_, pr, _, rfl⟩
    · exact Or.inl hp
    · rcases List.mem_append.mp hp with hpm | hps
      · exact Or.inl hpm
      · rw [List.mem_singleton] at hps
        subst hps
        exact Or.inr hfresh

theorem build_step_keys_mono {G B C GJ V : Type} (O : GeoOps G B C GJ V)
    (RM : List (Nat × G)) (E : List (IdxEntry G B V)) (prop : String)
    (m : List (String × MergedEntry G V)) (ir : Nat × G)
    (m' : List (String × MergedEntry G V))
    (hbs : build_step O RM E prop m ir = some m')
    (k : String) (hk : (alookup k m).isSome) : (alookup k m').isSome := by
  obtain ⟨idx, ring⟩ := ir
  cases hiso : isolatedCase (ixIntersects O E ring) idx with
  | true =>
      rw [build_step_isolated O RM E prop idx ring m hiso] at hbs
      cases hce : caseAEntry O E prop idx ring with
      | none => rw [hce] at hbs; cases hbs
      | some e =>
          rw [hce] at hbs
          simp only [Option.map_some'] at hbs
          have hm' : m' = dictInsert (centerHash O ring) e m :=
            (Option.some.injEq _ _ ▸ hbs).symm
          subst hm'
          exact alookup_dictInsert_isSome _ k e m hk
  | false =>
      rw [build_step_shared O RM E prop idx ring m hiso] at hbs
      cases hml : meshLines O RM E ring with
      | none => rw [hml] at hbs; cases hbs
      | some Ls =>
          rw [hml] at hbs
          simp only [Option.some_bind] at hbs
          exact foldlM_option_preserve (processLine O E prop idx ring)
            (fun mm => (alookup k mm).isSome)
            (fun s a s' hs hP => processLine_keys_mono O E prop idx ring s a s' hs k hP)
            Ls m m' hbs hk

theorem fold_build_step_keys_mono {G B C GJ V : Type} (O : GeoOps G B C GJ V)
    (RM : List (Nat × G)) (E : List (IdxEntry G B V)) (prop : String)
    (RL : List (Nat × G)) (m M : List (String × MergedEntry G V))
    (hfold : RL.foldlM (build_step O RM E prop) m = some M)
    (k : String) (hk : (alookup k m).isSome) : (alookup k M).isSome :=
  foldlM_option_preserve (build_step O RM E prop) (fun mm => (alookup k mm).isSome)
    (fun s a s' hs hP => build_step_keys_mono O RM E prop s a s' hs k hP)
    RL m M hfold hk

theorem caseAWrites_cons_true {G B C GJ V : Type} (O : GeoOps G B C GJ V)
    (RM : List (Nat × G)) (E : List (IdxEntry G B V)) (prop : String)
    (ir : Nat × G) (RL : List (Nat × G)) (e : MergedEntry G V)
    (hiso : isolatedCase (ixIntersects O E ir.2) ir.1 = true)
    (he : caseAEntry O E prop ir.1 ir.2 = some e) :
    caseAWrites O RM E prop (ir :: RL) =
      (centerHash O ir.2, e) :: caseAWrites O RM E prop RL := by
  unfold caseAWrites
  rw [List.filterMap_cons]
  rw [hiso]
  rw [he]
  rfl

theorem caseAWrites_cons_false {G B C GJ V : Type} (O : GeoOps G B C GJ V)
    (RM : List (Nat × G)) (E : List (IdxEntry G B V)) (prop : String)
    (ir : Nat × G) (RL : List (Nat × G))
    (hiso : isolatedCase (ixIntersects O E ir.2) ir.1 = false) :
    caseAWrites O RM E prop (ir :: RL) = caseAWrites O RM E prop RL := by
  unfold caseAWrites
  rw [List.filterMap_cons]
  rw [hiso]
  rfl

theorem fold_processLine_keys_mono {G B C GJ V : Type} (O : GeoOps G B C GJ V)
    (E : List (IdxEntry G B V)) (prop : String) (idx : Nat) (ring : G)
    (Ls : List G) (m m1 : List (String × MergedEntry G V))
    (hfold : Ls.foldlM (processLine O E prop idx ring) m = some m1)
    (k : String) (hk : (alookup k m).isSome) : (alookup k m1).isSome :=
  foldlM_option_preserve (processLine O E prop idx ring)
    (fun mm => (alookup k mm).isSome)
    (fun s a s' hs hP => processLine_keys_mono O E prop idx ring s a s' hs k hP)
    Ls m m1 hfold hk

theorem fold_processLine_new_keys {G B C GJ V : Type} (O : GeoOps G B C GJ V)
    (E : List (IdxEntry G B V)) (prop : String) (idx : Nat) (ring : G)
    (Ls : List G) (m m1 : List (String × MergedEntry G V))
    (hfold : Ls.foldlM (processLine O E prop idx ring) m = some m1) :
    ∀ p ∈ m1, p ∈ m ∨ alookup p.1 m = none := by
  have h := foldlM_option_preserve (processLine O E prop idx ring)
    (fun mm => (∀ p ∈ mm, p ∈ m ∨ alookup p.1 m = none)
      ∧ ∀ k, (alookup k m).isSome → (alookup k mm).isSome)
    ?hstep Ls m m1 hfold ⟨fun p hp => Or.inl hp, fun _ hk => hk⟩
  · exact h.1
  case hstep =>
    intro s a s' hs hP
    obtain ⟨hm, hmono⟩ := hP
    refine ⟨?_, fun k hk =>
      processLine_keys_mono O E prop idx ring s a s' hs k (hmono k hk)⟩
    intro p hp
    rcases processLine_new_keys O E prop idx ring s a s' hs p hp with hpm | hfr
    · exact hm p hpm
    · by_cases hkm : (alookup p.1 m).isSome
      · exfalso
        have hx := hmono p.1 hkm
        rw [hfr] at hx
        cases hx
      · exact Or.inr (Option.not_isSome_iff_eq_none.mp hkm)

theorem fold_processLine_line_fact {G B C GJ V : Type} (O : GeoOps G B C GJ V)
    (E : List (IdxEntry G B V)) (prop : String) (idx : Nat) (ring : G) :
    ∀ (Ls : List G) (m m1 : List (String × MergedEntry G V)),
      Ls.foldlM (processLine O E prop idx ring) m = some m1 →
      ∀ L ∈ Ls, O.intersects ring (O.buffer (get_center O L) (2/100)) = true →
        ((∃ fp lp, (O.coords L).head? = some fp ∧ (O.coords L).getLast? = some lp
            ∧ (O.intersects ring (O.point fp) && O.intersects ring (O.point lp)) = false)
         ∨ (alookup (centerHash O L) m1).isSome) := by
  intro Ls
  induction Ls with
  | nil =>
      intro m m1 _ L hL
      cases hL
  | cons L0 Ls ih =>
      intro m m1 hfold L hL hb
      rw [List.foldlM_cons] at hfold
      cases hpl : processLine O E prop idx ring m L0 with
      | none => rw [hpl] at hfold; cases hfold
      | some m0 =>
          rw [hpl] at hfold
          simp only [Option.bind_eq_bind, Option.some_bind] at hfold
          rcases List.mem_cons.mp hL with rfl | hLR
          · rcases processLine_success O E prop idx ring m L m0 hpl with
              ⟨hmem, rfl⟩ | ⟨_, hbf, _⟩ | ⟨fp, lp, hfresh, _, hfp, hlp, hsub⟩
            · exact Or.inr (fold_processLine_keys_mono O E prop idx ring Ls _ m1
                hfold _ hmem)
            · rw [hb] at hbf
              cases hbf
            · rcases hsub with ⟨hff, rfl⟩ | ⟨hff, pr, hglr, rfl⟩
              · exact Or.inl ⟨fp, lp, hfp, hlp, hff⟩
              · right
                have hsm : (alookup (centerHash O L) (m ++ [(centerHash O L,
                    ⟨O.lineString L, dictInsert "idx" (PVal.nat idx) pr⟩)])).isSome := by
                  rw [alookup_append_of_none _ _ _ hfresh, alookup_cons, if_pos rfl]
                  rfl
                exact fold_processLine_keys_mono O E prop idx ring Ls _ m1 hfold _ hsm
          · exact ih m0 m1 hfold L hLR hb

theorem run1_facts {G B C GJ V : Type} (O : GeoOps G B C GJ V)
    (RM : List (Nat × G)) (E : List (IdxEntry G B V)) (prop : String) :
    ∀ (RL : List (Nat × G)) (m M : List (String × MergedEntry G V)),
      RL.foldlM (build_step O RM E prop) m = some M →
      ∀ ir ∈ RL, RingFact O RM E prop M ir := by
  intro RL
  induction RL with
  | nil =>
      intro m M _ ir hir
      cases hir
  | cons ir0 RL ih =>
      intro m M hfold ir hir
      rw [List.foldlM_cons] at hfold
      cases hbs : build_step O RM E prop m ir0 with
      | none => rw [hbs] at hfold; cases hfold
      | some m1 =>
          rw [hbs] at hfold
          simp only [Option.bind_eq_bind, Option.some_bind] at hfold
          rcases List.mem_cons.mp hir with rfl | hirR
          · obtain ⟨idx, ring⟩ := ir
            constructor
            · intro hiso
              rw [build_step_isolated O RM E prop idx ring m hiso] at hbs
              cases hce : caseAEntry O E prop idx ring with
              | none =>
                  rw [hce] at hbs
                  simp at hbs
              | some e =>
                  rfl
            · intro hiso
              rw [build_step_shared O RM E prop idx ring m hiso] at hbs
              cases hml : meshLines O RM E ring with
              | none => rw [hml] at hbs; cases hbs
              | some Ls =>
                  rw [hml] at hbs
                  simp only [Option.some_bind] at hbs
                  refine ⟨Ls, rfl, ?_⟩
                  intro L hL hb
                  rcases fold_processLine_line_fact O E prop idx ring Ls m m1 hbs
                      L hL hb with hfl | hsome
                  · exact Or.inl hfl
                  · exact Or.inr (fold_build_step_keys_mono O RM E prop RL m1 M
                      hfold _ hsome)
          · exact ih m1 M hfold ir hirR

theorem run1_inv {G B C GJ V : Type} (O : GeoOps G B C GJ V)
    (RM : List (Nat × G)) (E : List (IdxEntry G B V)) (prop : String) :
    ∀ (RL : List (Nat × G)) (m M W0 : List (String × MergedEntry G V)),
      RL.foldlM (build_step O RM E prop) m = some M →
      (∀ p ∈ m, ∀ v, lastVal W0 p.1 = some v → v = p.2) →
      (∀ k ∈ keysOf W0, (alookup k m).isSome) →
      (∀ p ∈ M, ∀ v,
        lastVal (W0 ++ caseAWrites O RM E prop RL) p.1 = some v → v = p.2)
      ∧ (∀ k ∈ keysOf (W0 ++ caseAWrites O RM E prop RL), (alookup k M).isSome) := by
  intro RL
  induction RL with
  | nil =>
      intro m M W0 hfold hval hkeys
      rw [List.foldlM_nil] at hfold
      cases hfold
      constructor
      · intro p hp v hlv
        simp only [caseAWrites, List.filterMap_nil, List.append_nil] at hlv
        exact hval p hp v hlv
      · intro k hk
        simp only [caseAWrites, List.filterMap_nil, List.append_nil] at hk
        exact hkeys k hk
  | cons ir RL ih =>
      intro m M W0 hfold hval hkeys
      rw [List.foldlM_cons] at hfold
      cases hbs : build_step O RM E prop m ir with
      | none => rw [hbs] at hfold; cases hfold
      | some m1 =>
          rw [hbs] at hfold
          simp only [Option.bind_eq_bind, Option.some_bind] at hfold
          obtain ⟨idx, ring⟩ := ir
          cases hiso : isolatedCase (ixIntersects O E ring) idx with
          | true =>
              rw [build_step_isolated O RM E prop idx ring m hiso] at hbs
              cases hce : caseAEntry O E prop idx ring with
              | none =>
                  rw [hce] at hbs
                  simp at hbs
              | some e =>
                  rw [hce] at hbs
                  simp only [Option.map_some'] at hbs
                  have hm1 : m1 = dictInsert (centerHash O ring) e m :=
                    (Option.some.injEq _ _ ▸ hbs).symm
                  subst hm1
                  rw [caseAWrites_cons_true O RM E prop (idx, ring) RL e hiso hce]
                  have hassoc :
                      W0 ++ ((centerHash O ring, e) :: caseAWrites O RM E prop RL)
                      = (W0 ++ [(centerHash O ring, e)])
                          ++ caseAWrites O RM E prop RL := by
                    simp
                  rw [hassoc]
                  refine ih _ M (W0 ++ [(centerHash O ring, e)]) hfold ?_ ?_
                  · intro p hp v hlv
                    rw [lastVal_append_single] at hlv
                    rcases mem_dictInsert_strong _ _ _ _ hp with hpe | ⟨hpm, hpne⟩
                    · subst hpe
                      rw [if_pos rfl] at hlv
                      exact (Option.some.injEq _ _ ▸ hlv).symm
                    · rw [if_neg hpne] at hlv
                      exact hval p hpm v hlv
                  · intro k hk
                    rw [keysOf, List.map_append] at hk
                    rcases List.mem_append.mp hk with hk0 | hk1
                    · exact alookup_dictInsert_isSome _ k e m (hkeys k hk0)
                    · have hkh : k = centerHash O ring := by
                        simpa using hk1
                      subst hkh
                      rw [alookup_dictInsert_self]
                      rfl
          | false =>
              rw [build_step_shared O RM E prop idx ring m hiso] at hbs
              cases hml : meshLines O RM E ring with
              | none => rw [hml] at hbs; cases hbs
              | some Ls =>
                  rw [hml] at hbs
                  simp only [Option.some_bind] at hbs
                  rw [caseAWrites_cons_false O RM E prop (idx, ring) RL hiso]
                  refine ih _ M W0 hfold ?_ ?_
                  · intro p hp v hlv
                    rcases fold_processLine_new_keys O E prop idx ring Ls m m1 hbs
                        p hp with hpm | hfr
                    · exact hval p hpm v hlv
                    · exfalso
                      have hks : p.1 ∉ keysOf W0 := by
                        intro hkW
                        have hx := hkeys p.1 hkW
                        rw [hfr] at hx
                        cases hx
                      rw [lastVal_eq_none W0 p.1 hks] at hlv
                      cases hlv
                  · intro k hk
                    exact fold_processLine_keys_mono O E prop idx ring Ls m m1 hbs
                      k (hkeys k hk)

theorem run2_collapse {G B C GJ V : Type} (O : GeoOps G B C GJ V)
    (RM : List (Nat × G)) (E : List (IdxEntry G B V)) (prop : String)
    (M : List (String × MergedEntry G V)) :
    ∀ (RL : List (Nat × G)) (m2 : List (String × MergedEntry G V)),
      (∀ ir ∈ RL, RingFact O RM E prop M ir) →
      (∀ k, (alookup k M).isSome → (alookup k m2).isSome) →
      RL.foldlM (build_step O RM E prop) m2 =
        some ((caseAWrites O RM E prop RL).foldl
          (fun acc w => dictInsert w.1 w.2 acc) m2) := by
  intro RL
  induction RL with
  | nil =>
      intro m2 _ _
      rfl
  | cons ir RL ih =>
      intro m2 hfacts hsub
      rw [List.foldlM_cons]
      obtain ⟨idx, ring⟩ := ir
      have hfact := hfacts (idx, ring) (by simp)
      cases hiso : isolatedCase (ixIntersects O E ring) idx with
      | true =>
          have hce : (caseAEntry O E prop idx ring).isSome := hfact.1 hiso
          rw [Option.isSome_iff_exists] at hce
          obtain ⟨e, hce⟩ := hce
          rw [build_step_isolated O RM E prop idx ring m2 hiso, hce]
          simp only [Option.map_some', Option.bind_eq_bind, Option.some_bind]
          rw [caseAWrites_cons_true O RM E prop (idx, ring) RL e hiso hce,
            List.foldl_cons]
          refine ih (dictInsert (centerHash O ring) e m2) ?_ ?_
          · intro ir2 hir2
            exact hfacts ir2 (by simp [hir2])
          · intro k hk
            exact alookup_dictInsert_isSome _ k e m2 (hsub k hk)
      | false =>
          obtain ⟨Ls, hml, hLs⟩ := hfact.2 hiso
          rw [build_step_shared O RM E prop idx ring m2 hiso, hml]
          simp only [Option.some_bind]
          have hid : Ls.foldlM (processLine O E prop idx ring) m2 = some m2 := by
            apply foldlM_option_congr
            intro L hL
            by_cases hmem : (alookup (centerHash O L) m2).isSome
            · exact processLine_of_mem O E prop idx ring m2 L hmem
            · cases hb : O.intersects ring (O.buffer (get_center O L) (2/100)) with
              | false => exact processLine_of_nobuf O E prop idx ring m2 L hb
              | true =>
                  rcases hLs L hL hb with ⟨fp, lp, hfp, hlp, hff⟩ | hM
                  · exact processLine_of_flfalse O E prop idx ring m2 L fp lp
                      hfp hlp hff
                  · exact absurd (hsub _ hM) hmem
          rw [hid]
          simp only [Option.bind_eq_bind, Option.some_bind]
          rw [caseAWrites_cons_false O RM E prop (idx, ring) RL hiso]
          exact ih m2 (fun ir2 hir2 => hfacts ir2 (by simp [hir2])) hsub

/-- C4: running `build_linework` a second time with the same property name
over the unchanged loaded state (the rings dictionary and spatial index are
not modified by the pass) leaves the builder — in particular the linework
store, in both contents and key order — exactly as the first run produced
it: every isolated-case ring rewrites the same value in place at the same
position, and every shared-case line is skipped because its hash is already
present. -/
theorem c4_build_idempotent {G B C GJ V : Type} (O : GeoOps G B C GJ V)
    (prop : String) (b b' : Builder G B V)
    (h1 : Builder.build_linework O prop b = some b') :
    Builder.build_linework O prop b' = some b' := by
  unfold Builder.build_linework at h1 ⊢
  cases hfold : b.rings.foldlM (build_step O b.rings b.index prop) b.merged with
  | none => rw [hfold] at h1; cases h1
  | some M =>
      rw [hfold] at h1
      simp only [Option.map_some'] at h1
      have hb' : b' = { b with merged := M } := (Option.some.injEq _ _ ▸ h1).symm
      subst hb'
      show (b.rings.foldlM (build_step O b.rings b.index prop) M).map
          (fun m => { rings := b.rings, merged := m, index := b.index }) =
        some { b with merged := M }
      have hfacts := run1_facts O b.rings b.index prop b.rings b.merged M hfold
      have hinv := run1_inv O b.rings b.index prop b.rings b.merged M [] hfold
        (fun p hp v hlv => by cases hlv) (fun k hk => by cases hk)
      rw [List.nil_append] at hinv
      have hrun2 := run2_collapse O b.rings b.index prop M b.rings M hfacts
        (fun k hk => hk)
      rw [hrun2]
      rw [foldl_dictInsert_self (caseAWrites O b.rings b.index prop b.rings) M
        hinv.2 hinv.1]
      rfl

/-- Witness for C4: on the concrete one-ring witness state the first run
produces the concrete stored builder, and the second run reproduces it. -/
theorem c4_build_idempotent_witness :
    Builder.build_linework Q1D "P" bW = some bWs
    ∧ Builder.build_linework Q1D "P" bWs = some bWs :=
  ⟨rfl, c4_build_idempotent Q1D "P" bW bWs rfl⟩
